import Mathlib

/-!
Verification of the adaptive scheduling core of the `bdkinas` repository:
the SM-2 spaced-repetition scheduler (`app/services/spaced_repetition.py`)
and the learning-path engine (`app/services/learning_path_engine.py`).

Modelling conventions:
* Python `float` values (easiness factors, intervals, scores) are modelled as `ℚ`;
  all the constants involved (0.1, 0.08, 0.02, 1.3, 0.7, 0.8, ...) are exact
  decimal fractions, and every property below is about branch structure, order
  comparisons and exact products of those constants, so exact rational
  arithmetic is the faithful reading.
* Python `datetime` values are modelled as a rational number of days;
  `timedelta(days=d)` is addition of `d`.
* Python `dict`s that the code only ever queries by key are modelled as
  functions built with `Function.update`, mirroring the insertion/overwrite
  order of the source; `dict.get(k, default)` is the function applied at `k`.
* Loosely typed dict-records (`concept['id']`, `m.get('mastery_score', 0)`, ...)
  are modelled as structures whose fields carry the value the code reads,
  with the code's `.get` default as the value for an absent key.
-/

namespace Bdkinas

/-- A learning item as read by `SpacedRepetitionService.interleave_questions`:
only `topic_id` is inspected; `qid` is carried identity. -/
structure Question where
  qid : ℕ
  topic_id : ℕ
deriving DecidableEq, Repr

/-- A concept record as read by `LearningPathEngine`:
`concept['id']`, `concept.get('prerequisites', [])`,
`concept.get('difficulty_level', 1)`. -/
structure Concept where
  id : ℕ
  prerequisites : List ℕ
  difficulty_level : ℕ
deriving DecidableEq, Repr

/-- A concept-mastery record as read by the engine:
`m['concept_id']`, `m.get('mastery_score', 0)`. -/
structure Mastery where
  concept_id : ℕ
  mastery_score : ℚ
deriving DecidableEq, Repr

/-- A recent-performance record as read by `adapt_path`: `p.get('score', 0)`. -/
structure Performance where
  score : ℚ
deriving DecidableEq, Repr

/-- A learning-path record as read by `get_next_concept` and `adapt_path`:
`learning_path.get('concept_sequence', [])`,
`learning_path.get('current_concept_index', 0)`,
`learning_path.get('pace', 'moderate')`. -/
structure LearningPath where
  concept_sequence : List ℕ
  current_concept_index : ℕ
  pace : String
deriving DecidableEq, Repr

/-!
## SM-2 scheduler: `SpacedRepetitionService.calculate_next_review`

The Python function takes `(quality, repetitions, easiness_factor, interval_days)`
and, on its final line, reads the clock internally via `datetime.utcnow()`.
The extra argument `now` below models the value that internal clock read
returns; it is NOT a parameter of the Python function — the shallow embedding
makes the hidden input explicit so the function stays total and pure.
-/

/-- `SpacedRepetitionService.calculate_next_review`.
Returns `(new_repetitions, new_easiness_factor, new_interval_days, next_review_date)`.
`now` models the internal `datetime.utcnow()` reading (see section comment). -/
def calculate_next_review (quality repetitions : ℤ) (easiness_factor interval_days : ℚ)
    (now : ℚ) : ℤ × ℚ × ℚ × ℚ :=
  let new_ef : ℚ :=
    max (13/10)
      (easiness_factor + (1/10 - (5 - (quality : ℚ)) * (2/25 + (5 - (quality : ℚ)) * (1/50))))
  let new_repetitions : ℤ := if quality < 3 then 0 else repetitions + 1
  let new_interval : ℚ :=
    if quality < 3 then 0
    else if repetitions + 1 = 1 then 1
    else if repetitions + 1 = 2 then 6
    else interval_days * new_ef
  let next_review : ℚ := now + new_interval
  (new_repetitions, new_ef, new_interval, next_review)

/-- One pass of the end-to-end SM-2 scenario: feed one quality rating to a
`(repetitions, easiness_factor, interval_days)` state, keeping the scheduling
triple. The clock value is irrelevant to the kept components. -/
def sm2_step (quality : ℤ) (s : ℤ × ℚ × ℚ) : ℤ × ℚ × ℚ :=
  let r := calculate_next_review quality s.1 s.2.1 s.2.2 0
  (r.1, r.2.1, r.2.2.1)

/-- `avg_performance`, the mean computed by `LearningPathEngine.adapt_path`:
`sum(p.get('score', 0) for p in recent_performance) / max(len(recent_performance), 1)`. -/
def avg_performance (recent_performance : List Performance) : ℚ :=
  ((recent_performance.map Performance.score).sum) / ((max recent_performance.length 1 : ℕ) : ℚ)

/-- The fields of the adaptation report returned by `LearningPathEngine.adapt_path`
that carry decisions (the free-text `adjustments_made` messages are omitted). -/
structure AdaptReport where
  pace_change : Option String
  concepts_added : List ℕ
  concepts_skipped : List ℕ
deriving DecidableEq, Repr

/-- `LearningPathEngine.adapt_path` (decision fields). -/
def adapt_path (learning_path : LearningPath) (recent_performance : List Performance)
    (concept_masteries : List Mastery) : AdaptReport :=
  let avg := avg_performance recent_performance
  let current_pace := learning_path.pace
  let pace_change : Option String :=
    if avg > 9/10 ∧ current_pace ≠ "fast" then some "fast"
    else if avg < 6/10 ∧ current_pace ≠ "slow" then some "slow"
    else none
  let mastered_concepts :=
    (concept_masteries.filter (fun m => 9/10 < m.mastery_score)).map Mastery.concept_id
  { pace_change := pace_change
    concepts_added := []
    concepts_skipped := mastered_concepts }

/-!
## Claims C1–C4, C9 (SM-2 scheduler and path adapter)
-/

/-- **C1.** For every quality in `[0,5]`, `repetitions ≥ 0`, `easinessFactor ≥ 1.3`
and `intervalDays ≥ 0`: if `quality < 3` then `calculate_next_review` returns
`new_repetitions = 0` and `new_interval_days = 0`; otherwise it returns
`new_repetitions = repetitions + 1` and `new_interval_days` equal to `1` when
`new_repetitions = 1`, `6` when `new_repetitions = 2`, and
`interval_days * new_ef` when `new_repetitions ≥ 3`. -/
theorem C1_reset_and_growth (q r : ℤ) (ef i now : ℚ)
    (hq0 : 0 ≤ q) (hq5 : q ≤ 5) (hr : 0 ≤ r) (hef : 13/10 ≤ ef) (hi : 0 ≤ i) :
    (q < 3 →
      (calculate_next_review q r ef i now).1 = 0 ∧
      (calculate_next_review q r ef i now).2.2.1 = 0) ∧
    (3 ≤ q →
      (calculate_next_review q r ef i now).1 = r + 1 ∧
      (r + 1 = 1 → (calculate_next_review q r ef i now).2.2.1 = 1) ∧
      (r + 1 = 2 → (calculate_next_review q r ef i now).2.2.1 = 6) ∧
      (3 ≤ r + 1 →
        (calculate_next_review q r ef i now).2.2.1 =
          i * (calculate_next_review q r ef i now).2.1)) := by
  unfold calculate_next_review
  constructor
  · intro hq
    simp [hq]
  · intro hq
    have hq3 : ¬ q < 3 := by omega
    refine ⟨by simp [hq3], ?_, ?_, ?_⟩
    · intro h1
      simp [hq3, h1]
    · intro h2
      simp [hq3, h2]
    · intro h3
      have h1 : ¬ r + 1 = 1 := by omega
      have h2 : ¬ r + 1 = 2 := by omega
      simp [hq3, h1, h2]

/-- Witness for C1 at `quality = 5`, `repetitions = 2`, `EF = 5/2`,
`interval = 6`, `now = 0` (the third-success branch). -/
theorem C1_reset_and_growth_witness :
    ((0:ℤ) ≤ 5 ∧ (5:ℤ) ≤ 5 ∧ (0:ℤ) ≤ 2 ∧ (13/10 : ℚ) ≤ 5/2 ∧ (0:ℚ) ≤ 6) ∧
    (((5:ℤ) < 3 →
      (calculate_next_review 5 2 (5/2) 6 0).1 = 0 ∧
      (calculate_next_review 5 2 (5/2) 6 0).2.2.1 = 0) ∧
    ((3:ℤ) ≤ 5 →
      (calculate_next_review 5 2 (5/2) 6 0).1 = 2 + 1 ∧
      ((2:ℤ) + 1 = 1 → (calculate_next_review 5 2 (5/2) 6 0).2.2.1 = 1) ∧
      ((2:ℤ) + 1 = 2 → (calculate_next_review 5 2 (5/2) 6 0).2.2.1 = 6) ∧
      ((3:ℤ) ≤ 2 + 1 →
        (calculate_next_review 5 2 (5/2) 6 0).2.2.1 =
          6 * (calculate_next_review 5 2 (5/2) 6 0).2.1))) :=
  ⟨⟨by norm_num, by norm_num, by norm_num, by norm_num, by norm_num⟩,
    C1_reset_and_growth 5 2 (5/2) 6 0 (by norm_num) (by norm_num) (by norm_num)
      (by norm_num) (by norm_num)⟩

/-- **C2.** For every quality in `[0,5]` and `easinessFactor ≥ 1.3`,
`calculate_next_review` returns
`new_ef = max(1.3, EF + (0.1 - (5-q)*(0.08 + (5-q)*0.02)))`; consequently
`new_ef ≥ 1.3` always, and for `quality < 5` the new EF never exceeds the
input EF. -/
theorem C2_easiness_factor (q r : ℤ) (ef i now : ℚ)
    (hq0 : 0 ≤ q) (hq5 : q ≤ 5) (hef : 13/10 ≤ ef) :
    (calculate_next_review q r ef i now).2.1 =
      max (13/10) (ef + (1/10 - (5 - (q : ℚ)) * (2/25 + (5 - (q : ℚ)) * (1/50)))) ∧
    13/10 ≤ (calculate_next_review q r ef i now).2.1 ∧
    (q < 5 → (calculate_next_review q r ef i now).2.1 ≤ ef) := by
  refine ⟨rfl, le_max_left _ _, ?_⟩
  intro hq
  unfold calculate_next_review
  simp only
  have hq4 : q ≤ 4 := by omega
  refine max_le hef ?_
  have h1 : (1 : ℚ) ≤ 5 - (q : ℚ) := by
    have : (q : ℚ) ≤ 4 := by exact_mod_cast hq4
    linarith
  nlinarith [h1]

/-- Witness for C2 at `quality = 2`, `EF = 2` (a failed-recall quality). -/
theorem C2_easiness_factor_witness :
    ((0:ℤ) ≤ 2 ∧ (2:ℤ) ≤ 5 ∧ (13/10 : ℚ) ≤ 2) ∧
    ((calculate_next_review 2 0 2 0 0).2.1 =
      max (13/10) (2 + (1/10 - (5 - ((2:ℤ) : ℚ)) * (2/25 + (5 - ((2:ℤ) : ℚ)) * (1/50)))) ∧
    13/10 ≤ (calculate_next_review 2 0 2 0 0).2.1 ∧
    ((2:ℤ) < 5 → (calculate_next_review 2 0 2 0 0).2.1 ≤ 2)) :=
  ⟨⟨by norm_num, by norm_num, by norm_num⟩,
    C2_easiness_factor 2 0 2 0 0 (by norm_num) (by norm_num) (by norm_num)⟩

/-- **C3, counterexample.** The claim says `calculate_next_review` is a pure
function of its arguments with the clock passed explicitly.  In the source the
clock is read *internally* (`datetime.utcnow()` on the final line), so two
calls with identical Python-level arguments made at different clock instants
(modelled by the hidden-input values `0` and `1`) return different tuples. -/
theorem C3_not_clock_independent :
    calculate_next_review 5 0 (5/2) 0 0 ≠ calculate_next_review 5 0 (5/2) 0 1 := by
  intro h
  have h4 := congrArg (fun t : ℤ × ℚ × ℚ × ℚ => t.2.2.2) h
  simp only [calculate_next_review] at h4
  norm_num at h4

/-- **C3, amended.** The scheduling outputs `(new_repetitions, new_ef,
new_interval_days)` are a deterministic function of the four Python arguments
alone (they do not depend on the clock), and `next_review_date` equals the
internally read clock value plus `new_interval_days`; but the clock is read
internally by `datetime.utcnow()`, not passed as a parameter, so the full
result is not determined by the Python arguments. -/
theorem C3_pure_except_clock (q r : ℤ) (ef i now1 now2 : ℚ) :
    (calculate_next_review q r ef i now1).1 = (calculate_next_review q r ef i now2).1 ∧
    (calculate_next_review q r ef i now1).2.1 = (calculate_next_review q r ef i now2).2.1 ∧
    (calculate_next_review q r ef i now1).2.2.1 =
      (calculate_next_review q r ef i now2).2.2.1 ∧
    (calculate_next_review q r ef i now1).2.2.2 =
      now1 + (calculate_next_review q r ef i now1).2.2.1 := by
  exact ⟨rfl, rfl, rfl, rfl⟩

/-- **C4, counterexample.** Three consecutive `quality = 5` answers from the
fresh state `(repetitions, EF, interval) = (0, 5/2, 0)`: each call raises the
EF by `0.1` (`2.5 → 2.6 → 2.7 → 2.8`), so the third interval is
`6 * 2.8 = 16.8` days — not `6 * 2.6 = 15.6` as the claim states (it is more
than a full day away from `15.6`). -/
theorem C4_third_interval_not_15_6 :
    (sm2_step 5 (sm2_step 5 (sm2_step 5 (0, 5/2, 0)))).2.2 = 84/5 ∧
    1 < (sm2_step 5 (sm2_step 5 (sm2_step 5 (0, 5/2, 0)))).2.2 - 78/5 := by
  constructor
  · norm_num [sm2_step, calculate_next_review]
  · norm_num [sm2_step, calculate_next_review]

/-- **C4, amended.** Starting from a fresh item with `EF = 2.5`,
`repetitions = 0`, `interval = 0`, applying `calculate_next_review` three
consecutive times with `quality = 5` yields: after the 1st call
`repetitions = 1`, `interval = 1` (EF `2.6`); after the 2nd `repetitions = 2`,
`interval = 6` (EF `2.7`); after the 3rd `repetitions = 3` and
`interval = 6 * new_EF = 6 * 2.8 = 16.8` days. -/
theorem C4_three_perfect_answers :
    sm2_step 5 (0, 5/2, 0) = (1, 13/5, 1) ∧
    sm2_step 5 (1, 13/5, 1) = (2, 27/10, 6) ∧
    sm2_step 5 (2, 27/10, 6) = (3, 14/5, 84/5) := by
  refine ⟨?_, ?_, ?_⟩ <;> norm_num [sm2_step, calculate_next_review, Prod.ext_iff]

/-- **C9.** `adapt_path` called with an empty `recent_performance` list
computes the average as `0` (the division is guarded by `max(len, 1)`);
therefore, whenever the path's current pace is not already `'slow'`, an empty
performance list produces `pace_change = 'slow'`. -/
theorem C9_empty_performance_slows (lp : LearningPath) (ms : List Mastery)
    (h : lp.pace ≠ "slow") :
    avg_performance [] = 0 ∧
    (adapt_path lp [] ms).pace_change = some "slow" := by
  constructor
  · norm_num [avg_performance]
  · have havg : avg_performance [] = 0 := by norm_num [avg_performance]
    unfold adapt_path
    rw [havg]
    norm_num [h]

/-- A concrete learning path at the default pace `'moderate'`,
used to witness C9. -/
def moderatePath : LearningPath :=
  { concept_sequence := [], current_concept_index := 0, pace := "moderate" }

/-- Witness for C9 with the default pace `'moderate'`. -/
theorem C9_empty_performance_slows_witness :
    moderatePath.pace ≠ "slow" ∧
    (avg_performance [] = 0 ∧
      (adapt_path moderatePath [] []).pace_change = some "slow") :=
  ⟨by decide, C9_empty_performance_slows moderatePath [] (by decide)⟩

/-!
## Interleaving: `SpacedRepetitionService.interleave_questions`

The source groups questions by `topic_id` into a `defaultdict(list)`
(first-seen key order, within-topic order preserved) and then round-robins:
`while any(topic_lists): for topic_list in topic_lists: if topic_list:
interleaved.append(topic_list.pop(0))`.
-/

/-- One `topic_groups[q.topic_id].append(q)` step on the insertion-ordered
group list: append to the existing bucket, or create a new bucket at the end
(`defaultdict(list)` key-creation order). -/
def add_to_topic_group : List (ℕ × List Question) → Question → List (ℕ × List Question)
  | [], q => [(q.topic_id, [q])]
  | (t, l) :: gs, q =>
    if t = q.topic_id then (t, l ++ [q]) :: gs else (t, l) :: add_to_topic_group gs q

/-- The `topic_groups` dict of `interleave_questions`, as an insertion-ordered
association list. -/
def group_by_topic (questions : List Question) : List (ℕ × List Question) :=
  questions.foldl add_to_topic_group []

lemma sum_length_tail_le {α : Type} (ls : List (List α)) :
    ((ls.map List.tail).map List.length).sum ≤ (ls.map List.length).sum := by
  induction ls with
  | nil => simp
  | cons l ls ih =>
    simp only [List.map_cons, List.sum_cons]
    have : l.tail.length ≤ l.length := by
      rw [List.length_tail]; omega
    omega

lemma sum_length_tail_lt {α : Type} (ls : List (List α))
    (h : ¬ ls.all List.isEmpty = true) :
    ((ls.map List.tail).map List.length).sum < (ls.map List.length).sum := by
  induction ls with
  | nil => simp at h
  | cons l ls ih =>
    simp only [List.map_cons, List.sum_cons]
    by_cases hl : l = []
    · subst hl
      have hh : ¬ ls.all List.isEmpty = true := by
        simpa using h
      have := ih hh
      simpa using this
    · have h1 : l.tail.length < l.length := by
        rw [List.length_tail]
        cases l with
        | nil => exact absurd rfl hl
        | cons a as => simp
      have h2 := sum_length_tail_le ls
      omega

/-- The `while any(topic_lists)` round-robin loop of `interleave_questions`:
each pass takes the head of every non-exhausted list, in list order. -/
def round_robin (topic_lists : List (List Question)) : List Question :=
  if h : topic_lists.all List.isEmpty then []
  else topic_lists.filterMap List.head? ++ round_robin (topic_lists.map List.tail)
termination_by (topic_lists.map List.length).sum
decreasing_by
  exact sum_length_tail_lt topic_lists h

/-- `SpacedRepetitionService.interleave_questions`.  The ratio argument is only
used as an on/off gate (`if not questions or interleaving_ratio == 0`). -/
def interleave_questions (questions : List Question) (interleaving_share : ℚ) :
    List Question :=
  if questions = [] ∨ interleaving_share = 0 then questions
  else round_robin ((group_by_topic questions).map Prod.snd)

lemma add_to_topic_group_flatten_perm (gs : List (ℕ × List Question)) (q : Question) :
    ((add_to_topic_group gs q).map Prod.snd).flatten.Perm
      ((gs.map Prod.snd).flatten ++ [q]) := by
  induction gs with
  | nil => simp [add_to_topic_group]
  | cons g gs ih =>
    obtain ⟨t, l⟩ := g
    by_cases ht : t = q.topic_id
    · simp only [add_to_topic_group, if_pos ht, List.map_cons, List.flatten_cons]
      rw [List.append_assoc]
      exact (List.Perm.append_left l (List.perm_append_comm)).trans
        (by rw [List.append_assoc])
    · simp only [add_to_topic_group, if_neg ht, List.map_cons, List.flatten_cons]
      rw [List.append_assoc]
      exact List.Perm.append_left l ih

lemma group_by_topic_flatten_perm_aux (qs : List Question) :
    ∀ gs : List (ℕ × List Question),
      (((qs.foldl add_to_topic_group gs).map Prod.snd).flatten).Perm
        ((gs.map Prod.snd).flatten ++ qs) := by
  induction qs with
  | nil => intro gs; simp
  | cons q qs ih =>
    intro gs
    simp only [List.foldl_cons]
    refine (ih (add_to_topic_group gs q)).trans ?_
    refine (List.Perm.append_right qs (add_to_topic_group_flatten_perm gs q)).trans ?_
    rw [List.append_assoc]
    exact List.Perm.refl _

/-- Flattening the topic buckets recovers the input questions (as a multiset). -/
lemma group_by_topic_flatten_perm (qs : List Question) :
    (((group_by_topic qs).map Prod.snd).flatten).Perm qs := by
  simpa [group_by_topic] using group_by_topic_flatten_perm_aux qs []

lemma flatten_perm_heads_tails (ls : List (List Question)) :
    ls.flatten.Perm (ls.filterMap List.head? ++ (ls.map List.tail).flatten) := by
  induction ls with
  | nil => simp
  | cons l ls ih =>
    cases l with
    | nil => simpa using ih
    | cons a as =>
      simp only [List.flatten_cons, List.filterMap_cons, List.head?_cons, List.map_cons,
        List.tail_cons, List.cons_append]
      refine List.Perm.cons a ?_
      refine (List.Perm.append_left as ih).trans ?_
      rw [← List.append_assoc, ← List.append_assoc]
      exact List.Perm.append_right _ (List.perm_append_comm)

lemma all_isEmpty_flatten_eq_nil (ls : List (List Question))
    (h : ls.all List.isEmpty = true) : ls.flatten = [] := by
  induction ls with
  | nil => rfl
  | cons l ls ih =>
    simp only [List.all_cons, Bool.and_eq_true, List.isEmpty_iff] at h
    simp [List.flatten_cons, h.1, ih (by simpa using h.2)]

lemma round_robin_perm_aux :
    ∀ (n : ℕ) (ls : List (List Question)), (ls.map List.length).sum ≤ n →
      (round_robin ls).Perm ls.flatten := by
  intro n
  induction n with
  | zero =>
    intro ls hs
    have hall : ls.all List.isEmpty = true := by
      rw [List.all_eq_true]
      intro l hl
      rw [List.isEmpty_iff]
      have : l.length = 0 := by
        by_contra hne
        have h1 : 1 ≤ l.length := by omega
        have h2 : l.length ≤ (ls.map List.length).sum := by
          exact List.le_sum_of_mem (List.mem_map_of_mem _ hl)
        omega
      exact List.length_eq_zero.mp this
    rw [round_robin, dif_pos hall, all_isEmpty_flatten_eq_nil ls hall]
  | succ n ih =>
    intro ls hs
    by_cases hall : ls.all List.isEmpty = true
    · rw [round_robin, dif_pos hall, all_isEmpty_flatten_eq_nil ls hall]
    · rw [round_robin, dif_neg hall]
      have hlt := sum_length_tail_lt ls hall
      have hrec := ih (ls.map List.tail) (by omega)
      refine ((List.Perm.append_left _ hrec).trans ?_)
      exact (flatten_perm_heads_tails ls).symm

/-- `round_robin` consumes exactly the elements of its bucket lists. -/
lemma round_robin_perm (ls : List (List Question)) :
    (round_robin ls).Perm ls.flatten :=
  round_robin_perm_aux ((ls.map List.length).sum) ls le_rfl

/-- **C7.** For every input list of items and every ratio,
`interleave_questions` returns a permutation of its input (same multiset, no
drops or duplicates), and when the ratio is `0` or the input list is empty it
returns the input unchanged. -/
theorem C7_interleave_permutation :
    (∀ (qs : List Question) (share : ℚ), (interleave_questions qs share).Perm qs) ∧
    (∀ (qs : List Question) (share : ℚ), qs = [] ∨ share = 0 →
      interleave_questions qs share = qs) := by
  constructor
  · intro qs share
    unfold interleave_questions
    by_cases h : qs = [] ∨ share = 0
    · rw [if_pos h]
    · rw [if_neg h]
      exact (round_robin_perm _).trans (group_by_topic_flatten_perm qs)
  · intro qs share h
    unfold interleave_questions
    rw [if_pos h]

/-- Witness for C7 at the empty input and ratio `1`. -/
theorem C7_interleave_permutation_witness :
    (([] : List Question) = [] ∨ (1 : ℚ) = 0) ∧
    interleave_questions [] 1 = [] :=
  ⟨Or.inl rfl, C7_interleave_permutation.2 [] 1 (Or.inl rfl)⟩

/-!
## Progress navigator: `LearningPathEngine.get_next_concept`
-/

/-- The `mastery_map` dict `{m['concept_id']: m for m in concept_masteries}`;
later entries overwrite earlier ones. -/
def mastery_map (concept_masteries : List Mastery) : ℕ → Option Mastery :=
  concept_masteries.foldl (fun f m => Function.update f m.concept_id (some m))
    (fun _ => none)

/-- `LearningPathEngine._check_prerequisites_met`: every prerequisite has a
mastery record with `mastery_score ≥ threshold`; a missing record fails. -/
def check_prerequisites_met (concept : Concept) (mmap : ℕ → Option Mastery)
    (threshold : ℚ) : Bool :=
  concept.prerequisites.all fun prereq_id =>
    match mmap prereq_id with
    | none => false
    | some m => threshold ≤ m.mastery_score

/-- The next-concept descriptor returned by `get_next_concept`. -/
structure NextConcept where
  concept : Concept
  index : ℕ
  progress : ℚ
  prerequisites_status : String
deriving DecidableEq, Repr

/-- The `for idx in range(current_idx, len(sequence))` scan of
`get_next_concept`, starting at `idx`. -/
def next_concept_from (concepts : List Concept) (mmap : ℕ → Option Mastery)
    (sequence : List ℕ) (idx : ℕ) : Option NextConcept :=
  if h : idx < sequence.length then
    let concept_id := sequence.get ⟨idx, h⟩
    match concepts.find? (fun c => decide (c.id = concept_id)) with
    | none => next_concept_from concepts mmap sequence (idx + 1)
    | some concept =>
      if check_prerequisites_met concept mmap (7/10) then
        match mmap concept_id with
        | none =>
          some ⟨concept, idx, ((idx : ℚ) / (sequence.length : ℚ)) * 100, "met"⟩
        | some mastery =>
          if mastery.mastery_score < 8/10 then
            some ⟨concept, idx, ((idx : ℚ) / (sequence.length : ℚ)) * 100, "met"⟩
          else next_concept_from concepts mmap sequence (idx + 1)
      else next_concept_from concepts mmap sequence (idx + 1)
  else none
termination_by sequence.length - idx

/-- `LearningPathEngine.get_next_concept`. -/
def get_next_concept (learning_path : LearningPath) (concept_masteries : List Mastery)
    (concepts : List Concept) : Option NextConcept :=
  let sequence := learning_path.concept_sequence
  let current_idx := learning_path.current_concept_index
  if sequence.length ≤ current_idx then none
  else next_concept_from concepts (mastery_map concept_masteries) sequence current_idx

/-- The prerequisite-mastery gate of position claims: every prerequisite id of
`c` has a mastery record scoring at least `0.7`. -/
def GateOpen (mmap : ℕ → Option Mastery) (c : Concept) : Prop :=
  ∀ p ∈ c.prerequisites, ∃ m, mmap p = some m ∧ 7/10 ≤ m.mastery_score

/-- Position `j` of the sequence is the kind of position the scan stops at:
the concept id at `j` resolves in `concepts`, its prerequisite gate is open,
and its own mastery is missing or below `0.8`. -/
def Qualifies (concepts : List Concept) (mmap : ℕ → Option Mastery)
    (sequence : List ℕ) (j : ℕ) : Prop :=
  ∃ (hj : j < sequence.length) (c : Concept),
    concepts.find? (fun c2 => decide (c2.id = sequence.get ⟨j, hj⟩)) = some c ∧
    GateOpen mmap c ∧
    (mmap (sequence.get ⟨j, hj⟩) = none ∨
      ∃ m, mmap (sequence.get ⟨j, hj⟩) = some m ∧ m.mastery_score < 8/10)

lemma check_prerequisites_met_iff (c : Concept) (mmap : ℕ → Option Mastery) :
    check_prerequisites_met c mmap (7/10) = true ↔ GateOpen mmap c := by
  unfold check_prerequisites_met GateOpen
  rw [List.all_eq_true]
  constructor
  · intro h p hp
    have := h p hp
    cases hm : mmap p with
    | none => rw [hm] at this; simp at this
    | some m =>
      rw [hm] at this
      simp only [decide_eq_true_eq] at this
      exact ⟨m, rfl, this⟩
  · intro h p hp
    obtain ⟨m, hm, hs⟩ := h p hp
    rw [hm]
    simpa using hs

lemma next_concept_from_spec (concepts : List Concept) (mmap : ℕ → Option Mastery)
    (sequence : List ℕ) :
    ∀ (k idx : ℕ), sequence.length - idx ≤ k →
      (∀ r, next_concept_from concepts mmap sequence idx = some r →
        idx ≤ r.index ∧
        (∃ hr : r.index < sequence.length,
          concepts.find? (fun c2 => decide (c2.id = sequence.get ⟨r.index, hr⟩)) =
            some r.concept ∧
          r.progress = ((r.index : ℚ) / (sequence.length : ℚ)) * 100 ∧
          r.prerequisites_status = "met") ∧
        Qualifies concepts mmap sequence r.index ∧
        (∀ j, idx ≤ j → j < r.index → ¬ Qualifies concepts mmap sequence j)) ∧
      (next_concept_from concepts mmap sequence idx = none →
        ∀ j, idx ≤ j → j < sequence.length → ¬ Qualifies concepts mmap sequence j) := by
  intro k
  induction k with
  | zero =>
    intro idx hk
    have hout : ¬ idx < sequence.length := by omega
    rw [next_concept_from, dif_neg hout]
    refine ⟨fun r hr => by simp at hr, fun _ j hij hj => ?_⟩
    omega
  | succ k ih =>
    intro idx hk
    by_cases h : idx < sequence.length
    · rw [next_concept_from, dif_pos h]
      simp only
      have hrec := ih (idx + 1) (by omega)
      -- helper fact: when the scan skips position idx, idx does not qualify
      cases hfind : concepts.find? (fun c2 => decide (c2.id = sequence.get ⟨idx, h⟩)) with
      | none =>
        have hnq : ¬ Qualifies concepts mmap sequence idx := by
          rintro ⟨hj, c, hc, -, -⟩
          rw [show (⟨idx, hj⟩ : Fin sequence.length) = ⟨idx, h⟩ from rfl] at hc
          rw [hfind] at hc
          exact Option.noConfusion hc
        refine ⟨fun r hr => ?_, fun hr j hij hjl => ?_⟩
        · obtain ⟨h1, h2, h3, h4⟩ := hrec.1 r hr
          refine ⟨by omega, h2, h3, fun j hij hjr => ?_⟩
          rcases Nat.eq_or_lt_of_le hij with heq | hlt
          · subst heq; exact hnq
          · exact h4 j hlt hjr
        · rcases Nat.eq_or_lt_of_le hij with heq | hlt
          · subst heq; exact hnq
          · exact hrec.2 hr j hlt hjl
      | some concept =>
        dsimp only
        by_cases hgate : check_prerequisites_met concept mmap (7/10) = true
        · rw [if_pos hgate]
          cases hmm : mmap (sequence.get ⟨idx, h⟩) with
          | none =>
            dsimp only
            refine ⟨fun r hr => ?_, fun hr => ?_⟩
            · have hr2 : (⟨concept, idx,
                  ((idx : ℚ) / (sequence.length : ℚ)) * 100, "met"⟩ : NextConcept) = r := by
                injection hr
              subst hr2
              refine ⟨le_refl _, ⟨h, hfind, rfl, rfl⟩, ?_,
                fun j hij hjr => by have h5 : j < idx := hjr; omega⟩
              exact ⟨h, concept, hfind,
                (check_prerequisites_met_iff concept mmap).mp hgate, Or.inl hmm⟩
            · exact absurd hr (by simp)
          | some mastery =>
            dsimp only
            by_cases hms : mastery.mastery_score < 8/10
            · rw [if_pos hms]
              refine ⟨fun r hr => ?_, fun hr => ?_⟩
              · have hr2 : (⟨concept, idx,
                    ((idx : ℚ) / (sequence.length : ℚ)) * 100, "met"⟩ : NextConcept) = r := by
                  injection hr
                subst hr2
                refine ⟨le_refl _, ⟨h, hfind, rfl, rfl⟩, ?_,
                  fun j hij hjr => by have h5 : j < idx := hjr; omega⟩
                exact ⟨h, concept, hfind,
                  (check_prerequisites_met_iff concept mmap).mp hgate,
                  Or.inr ⟨mastery, hmm, hms⟩⟩
              · exact absurd hr (by simp)
            · rw [if_neg hms]
              have hnq : ¬ Qualifies concepts mmap sequence idx := by
                rintro ⟨hj, c, hc, -, hmast⟩
                rw [show (⟨idx, hj⟩ : Fin sequence.length) = ⟨idx, h⟩ from rfl] at hc hmast
                rcases hmast with hnone | ⟨m, hm, hlt⟩
                · rw [hmm] at hnone; exact Option.noConfusion hnone
                · rw [hmm] at hm
                  have : mastery = m := by injection hm
                  subst this
                  exact hms hlt
              refine ⟨fun r hr => ?_, fun hr j hij hjl => ?_⟩
              · obtain ⟨h1, h2, h3, h4⟩ := hrec.1 r hr
                refine ⟨by omega, h2, h3, fun j hij hjr => ?_⟩
                rcases Nat.eq_or_lt_of_le hij with heq | hlt
                · subst heq; exact hnq
                · exact h4 j hlt hjr
              · rcases Nat.eq_or_lt_of_le hij with heq | hlt
                · subst heq; exact hnq
                · exact hrec.2 hr j hlt hjl
        · rw [if_neg hgate]
          have hnq : ¬ Qualifies concepts mmap sequence idx := by
            rintro ⟨hj, c, hc, hg, -⟩
            rw [show (⟨idx, hj⟩ : Fin sequence.length) = ⟨idx, h⟩ from rfl] at hc
            rw [hfind] at hc
            have : concept = c := by injection hc
            subst this
            exact hgate ((check_prerequisites_met_iff concept mmap).mpr hg)
          refine ⟨fun r hr => ?_, fun hr j hij hjl => ?_⟩
          · obtain ⟨h1, h2, h3, h4⟩ := hrec.1 r hr
            refine ⟨by omega, h2, h3, fun j hij hjr => ?_⟩
            rcases Nat.eq_or_lt_of_le hij with heq | hlt
            · subst heq; exact hnq
            · exact h4 j hlt hjr
          · rcases Nat.eq_or_lt_of_le hij with heq | hlt
            · subst heq; exact hnq
            · exact hrec.2 hr j hlt hjl
    · rw [next_concept_from, dif_neg h]
      refine ⟨fun r hr => by simp at hr, fun _ j hij hj => ?_⟩
      omega

/-- **C8.** `get_next_concept` never returns a concept that has a prerequisite
whose mastery score is below `0.7` or that has no mastery record at all; it
returns `none` when `current_concept_index ≥` the sequence length; and
otherwise it returns exactly the first forward position whose prerequisite
gate passes and whose own mastery is missing or below `0.8` (and `none` when
no such position exists). -/
theorem C8_navigator_gating (lp : LearningPath) (ms : List Mastery)
    (cs : List Concept) :
    (∀ r, get_next_concept lp ms cs = some r →
      ∀ p ∈ r.concept.prerequisites,
        ∃ m, mastery_map ms p = some m ∧ 7/10 ≤ m.mastery_score) ∧
    (lp.concept_sequence.length ≤ lp.current_concept_index →
      get_next_concept lp ms cs = none) ∧
    (∀ r, get_next_concept lp ms cs = some r →
      lp.current_concept_index ≤ r.index ∧
      Qualifies cs (mastery_map ms) lp.concept_sequence r.index ∧
      ∀ j, lp.current_concept_index ≤ j → j < r.index →
        ¬ Qualifies cs (mastery_map ms) lp.concept_sequence j) ∧
    (get_next_concept lp ms cs = none →
      ∀ j, lp.current_concept_index ≤ j → j < lp.concept_sequence.length →
        ¬ Qualifies cs (mastery_map ms) lp.concept_sequence j) := by
  have hspec := next_concept_from_spec cs (mastery_map ms) lp.concept_sequence
    (lp.concept_sequence.length - lp.current_concept_index) lp.current_concept_index
    (le_refl _)
  by_cases hlen : lp.concept_sequence.length ≤ lp.current_concept_index
  · have hnone : get_next_concept lp ms cs = none := by
      unfold get_next_concept
      rw [if_pos hlen]
    refine ⟨fun r hr => absurd (hnone ▸ hr) (by simp), fun _ => hnone,
      fun r hr => absurd (hnone ▸ hr) (by simp), fun _ j h1 h2 => ?_⟩
    omega
  · have heq : get_next_concept lp ms cs =
        next_concept_from cs (mastery_map ms) lp.concept_sequence
          lp.current_concept_index := by
      unfold get_next_concept
      rw [if_neg hlen]
    rw [heq]
    refine ⟨fun r hr => ?_, fun h => absurd h hlen, fun r hr => ?_, fun hr => hspec.2 hr⟩
    · obtain ⟨-, -, hq, -⟩ := hspec.1 r hr
      obtain ⟨hj, c, hfind, hgate, -⟩ := hq
      obtain ⟨-, ⟨hr2, hfind2, -, -⟩, -, -⟩ := hspec.1 r hr
      rw [show (⟨r.index, hj⟩ : Fin lp.concept_sequence.length) = ⟨r.index, hr2⟩
        from rfl] at hfind
      rw [hfind2] at hfind
      have h9 : r.concept = c := by injection hfind
      rw [h9]
      exact hgate
    · obtain ⟨h1, -, h3, h4⟩ := hspec.1 r hr
      exact ⟨h1, h3, h4⟩

/-- Witness for C8: one concept whose single prerequisite has mastery exactly
`0.7` and which itself has no mastery record; the scan returns it at index 0. -/
theorem C8_navigator_gating_witness :
    get_next_concept ⟨[1], 0, "moderate"⟩ [⟨2, 7/10⟩] [⟨1, [2], 1⟩] =
      some ⟨⟨1, [2], 1⟩, 0, 0, "met"⟩ ∧
    ∀ p ∈ (Concept.mk 1 [2] 1).prerequisites,
      ∃ m, mastery_map [⟨2, 7/10⟩] p = some m ∧ 7/10 ≤ m.mastery_score := by
  have hrun : get_next_concept ⟨[1], 0, "moderate"⟩ [⟨2, 7/10⟩] [⟨1, [2], 1⟩] =
      some ⟨⟨1, [2], 1⟩, 0, 0, "met"⟩ := by
    unfold get_next_concept
    rw [if_neg (by norm_num)]
    rw [next_concept_from, dif_pos (by norm_num : (0:ℕ) < [1].length)]
    norm_num [mastery_map, check_prerequisites_met, Function.update]
  refine ⟨hrun, ?_⟩
  have := (C8_navigator_gating ⟨[1], 0, "moderate"⟩ [⟨2, 7/10⟩] [⟨1, [2], 1⟩]).1
    ⟨⟨1, [2], 1⟩, 0, 0, "met"⟩ hrun
  simpa using this

/-!
## Dependency graph builder and topological sort
(`LearningPathEngine._build_dependency_graph`, `._topological_sort`)

The Python loop is Kahn's algorithm with the whole ready queue re-sorted by
`sorted(queue, key=lambda x: x.get('difficulty_level', 1))` at every
iteration.  Python's `sorted` is stable; a stable sort is uniquely determined
by its key, so the structurally recursive stable insertion sort below computes
the same list and stays kernel-computable.  The `while queue:` loop is modelled
with a fuel parameter; `kahn_loop_fuel_independent` below shows the fuel budget
chosen in `topological_sort` is never the binding constraint, i.e. the loop
always reaches the empty queue.
-/

/-- Stable insertion of `a` into an already difficulty-sorted list: `a` goes
after every element whose difficulty does not exceed its own, so earlier
equal-difficulty elements keep their position. -/
def insert_by_difficulty (a : Concept) : List Concept → List Concept
  | [] => [a]
  | b :: l =>
    if b.difficulty_level ≤ a.difficulty_level then b :: insert_by_difficulty a l
    else a :: b :: l

/-- `sorted(queue, key=lambda x: x.get('difficulty_level', 1))` (stable,
ascending). -/
def sort_by_difficulty (l : List Concept) : List Concept :=
  l.foldl (fun acc a => insert_by_difficulty a acc) []

/-- `LearningPathEngine._build_dependency_graph`: maps each prerequisite id to
the ids of the concepts listing it (`graph[prereq_id].append(concept_id)`),
queried with `graph.get(key, [])`. -/
def build_dependency_graph (concepts : List Concept) : ℕ → List ℕ :=
  concepts.foldl
    (fun g c =>
      c.prerequisites.foldl (fun g2 p => Function.update g2 p (g2 p ++ [c.id])) g)
    (fun _ => [])

/-- The `in_degree` dict right before the while loop of `_topological_sort`:
`in_degree[concept_id] += 1` once per listed prerequisite.  Values are `ℤ`
because the loop later decrements without a floor. -/
def in_degree0 (concepts : List Concept) : ℕ → ℤ :=
  concepts.foldl
    (fun f c =>
      c.prerequisites.foldl (fun g _ => Function.update g c.id (g c.id + 1)) f)
    (fun _ => 0)

/-- The `concept_map` dict `{c['id']: c for c in concepts}`; later entries
overwrite earlier ones. -/
def concept_map (concepts : List Concept) : ℕ → Option Concept :=
  concepts.foldl (fun f c => Function.update f c.id (some c)) (fun _ => none)

/-- The inner `for dependent_id in graph.get(concept['id'], [])` loop of
`_topological_sort`: decrement each dependent's in-degree and append the
newly-zero dependents (via `concept_map`) to the queue. -/
def process_dependents (cmap : ℕ → Option Concept) (deps : List ℕ)
    (queue : List Concept) (indeg : ℕ → ℤ) : List Concept × (ℕ → ℤ) :=
  deps.foldl
    (fun s dep =>
      let d2 := Function.update s.2 dep (s.2 dep - 1)
      if d2 dep = 0 then
        match cmap dep with
        | some k => (s.1 ++ [k], d2)
        | none => (s.1, d2)
      else (s.1, d2))
    (queue, indeg)

/-- The `while queue:` loop of `_topological_sort`, with an explicit fuel
bound (shown later to never bind at the budget used by `topological_sort`). -/
def kahn_loop (graph : ℕ → List ℕ) (cmap : ℕ → Option Concept) :
    ℕ → List Concept → (ℕ → ℤ) → List Concept
  | 0, _, _ => []
  | fuel + 1, queue, indeg =>
    match sort_by_difficulty queue with
    | [] => []
    | concept :: rest =>
      let s := process_dependents cmap (graph concept.id) rest indeg
      concept :: kahn_loop graph cmap fuel s.1 s.2

/-- `LearningPathEngine._topological_sort` composed with
`_build_dependency_graph`, as called by `create_learning_path`. -/
def topological_sort (concepts : List Concept) : List Concept :=
  let graph := build_dependency_graph concepts
  let indeg := in_degree0 concepts
  let queue := concepts.filter (fun c => decide (indeg c.id = 0))
  kahn_loop graph (concept_map concepts) (concepts.length + concepts.length) queue indeg

/-!
### Stable sort facts
-/

lemma insert_by_difficulty_perm (a : Concept) (l : List Concept) :
    (insert_by_difficulty a l).Perm (a :: l) := by
  induction l with
  | nil => simp [insert_by_difficulty]
  | cons b l ih =>
    unfold insert_by_difficulty
    by_cases h : b.difficulty_level ≤ a.difficulty_level
    · rw [if_pos h]
      exact (List.Perm.cons b ih).trans (List.Perm.swap a b l)
    · rw [if_neg h]

lemma sort_by_difficulty_perm (l : List Concept) : (sort_by_difficulty l).Perm l := by
  suffices h : ∀ (xs acc : List Concept),
      (xs.foldl (fun acc a => insert_by_difficulty a acc) acc).Perm (acc ++ xs) by
    simpa [sort_by_difficulty] using h l []
  intro xs
  induction xs with
  | nil => simp
  | cons x xs ih =>
    intro acc
    simp only [List.foldl_cons]
    refine (ih (insert_by_difficulty x acc)).trans ?_
    refine (List.Perm.append_right xs (insert_by_difficulty_perm x acc)).trans ?_
    have h2 : (x :: acc) ++ xs = x :: (acc ++ xs) := rfl
    rw [h2]
    exact List.perm_middle.symm

lemma insert_by_difficulty_sorted (a : Concept) (l : List Concept)
    (h : l.Pairwise (fun x y => x.difficulty_level ≤ y.difficulty_level)) :
    (insert_by_difficulty a l).Pairwise
      (fun x y => x.difficulty_level ≤ y.difficulty_level) := by
  induction l with
  | nil => simp [insert_by_difficulty]
  | cons b l ih =>
    unfold insert_by_difficulty
    rcases List.pairwise_cons.mp h with ⟨hb, hl⟩
    by_cases hba : b.difficulty_level ≤ a.difficulty_level
    · rw [if_pos hba]
      refine List.pairwise_cons.mpr ⟨?_, ih hl⟩
      intro x hx
      have := (insert_by_difficulty_perm a l).mem_iff.mp hx
      rcases List.mem_cons.mp this with rfl | hxl
      · exact hba
      · exact hb x hxl
    · rw [if_neg hba]
      refine List.pairwise_cons.mpr ⟨?_, h⟩
      intro x hx
      rcases List.mem_cons.mp hx with rfl | hxl
      · omega
      · exact le_trans (by omega) (hb x hxl)

lemma sort_by_difficulty_sorted (l : List Concept) :
    (sort_by_difficulty l).Pairwise
      (fun x y => x.difficulty_level ≤ y.difficulty_level) := by
  suffices h : ∀ (xs acc : List Concept),
      acc.Pairwise (fun x y => x.difficulty_level ≤ y.difficulty_level) →
      (xs.foldl (fun acc a => insert_by_difficulty a acc) acc).Pairwise
        (fun x y => x.difficulty_level ≤ y.difficulty_level) by
    exact h l [] (by simp)
  intro xs
  induction xs with
  | nil => intro acc hacc; simpa using hacc
  | cons x xs ih =>
    intro acc hacc
    simp only [List.foldl_cons]
    exact ih _ (insert_by_difficulty_sorted x acc hacc)

/-- The head of the sorted ready queue has minimal difficulty in the queue. -/
lemma sort_by_difficulty_head_min (q : List Concept) (e : Concept) (rest : List Concept)
    (h : sort_by_difficulty q = e :: rest) :
    e ∈ q ∧ ∀ x ∈ q, e.difficulty_level ≤ x.difficulty_level := by
  have hperm := sort_by_difficulty_perm q
  rw [h] at hperm
  constructor
  · exact hperm.mem_iff.mp (List.mem_cons_self e rest)
  · intro x hx
    have hx2 : x ∈ e :: rest := hperm.symm.mem_iff.mp hx
    rcases List.mem_cons.mp hx2 with rfl | hxr
    · exact le_refl _
    · have hs := sort_by_difficulty_sorted q
      rw [h] at hs
      exact (List.pairwise_cons.mp hs).1 x hxr

/-!
### Characterizations of the dict builders
-/

lemma concept_map_sound (concepts : List Concept) (i : ℕ) (c : Concept)
    (h : concept_map concepts i = some c) : c ∈ concepts ∧ c.id = i := by
  suffices haux : ∀ (cs : List Concept) (f : ℕ → Option Concept),
      (cs.foldl (fun (f : ℕ → Option Concept) c => Function.update f c.id (some c)) f) i =
        some c →
      (c ∈ cs ∧ c.id = i) ∨ f i = some c by
    rcases haux concepts (fun _ => none) h with h1 | h2
    · exact h1
    · exact Option.noConfusion h2
  intro cs
  induction cs with
  | nil => intro f hf; exact Or.inr hf
  | cons a cs ih =>
    intro f hf
    rcases ih _ hf with h1 | h2
    · exact Or.inl ⟨List.mem_cons_of_mem a h1.1, h1.2⟩
    · simp only [Function.update_apply] at h2
      by_cases hia : i = a.id
      · rw [if_pos hia] at h2
        have ha : a = c := by injection h2
        subst ha
        exact Or.inl ⟨List.mem_cons_self _ _, hia.symm⟩
      · rw [if_neg hia] at h2
        exact Or.inr h2

lemma concept_map_isSome_aux (cs : List Concept) :
    ∀ (f : ℕ → Option Concept) (i : ℕ), (f i).isSome →
      ((cs.foldl (fun (f : ℕ → Option Concept) c =>
        Function.update f c.id (some c)) f) i).isSome := by
  induction cs with
  | nil => intro f i h; exact h
  | cons a cs ih =>
    intro f i h
    refine ih _ i ?_
    simp only [Function.update_apply]
    by_cases hia : i = a.id
    · rw [if_pos hia]; rfl
    · rw [if_neg hia]; exact h

lemma concept_map_complete (concepts : List Concept) (c : Concept) (h : c ∈ concepts) :
    ∃ c2, concept_map concepts c.id = some c2 ∧ c2 ∈ concepts ∧ c2.id = c.id := by
  have hsome : (concept_map concepts c.id).isSome := by
    suffices haux : ∀ (cs : List Concept) (f : ℕ → Option Concept), c ∈ cs →
        ((cs.foldl (fun (f : ℕ → Option Concept) c =>
          Function.update f c.id (some c)) f) c.id).isSome by
      exact haux concepts (fun _ => none) h
    intro cs
    induction cs with
    | nil => intro f hf; exact absurd hf (List.not_mem_nil c)
    | cons a cs ih =>
      intro f hf
      rcases List.mem_cons.mp hf with rfl | hmem
      · refine concept_map_isSome_aux cs _ c.id ?_
        simp only [Function.update_same]
        rfl
      · exact ih _ hmem

  obtain ⟨c2, hc2⟩ := Option.isSome_iff_exists.mp hsome
  obtain ⟨hmem, hid⟩ := concept_map_sound concepts c.id c2 hc2
  exact ⟨c2, hc2, hmem, hid⟩

/-- On a duplicate-free concept set, concept ids identify concepts. -/
lemma concept_id_inj (concepts : List Concept)
    (hN : (concepts.map Concept.id).Nodup) {a b : Concept}
    (ha : a ∈ concepts) (hb : b ∈ concepts) (hid : a.id = b.id) : a = b :=
  List.inj_on_of_nodup_map hN ha hb hid

lemma concept_map_self (concepts : List Concept)
    (hN : (concepts.map Concept.id).Nodup) (c : Concept) (h : c ∈ concepts) :
    concept_map concepts c.id = some c := by
  obtain ⟨c2, hc2, hc2m, hc2id⟩ := concept_map_complete concepts c h
  rw [hc2, concept_id_inj concepts hN hc2m h hc2id]

lemma indeg_inner (ps : List ℕ) (k : ℕ) :
    ∀ (g : ℕ → ℤ) (i : ℕ),
      (ps.foldl (fun g _ => Function.update g k (g k + 1)) g) i =
        g i + (if i = k then (ps.length : ℤ) else 0) := by
  induction ps with
  | nil => intro g i; simp
  | cons p ps ih =>
    intro g i
    simp only [List.foldl_cons]
    rw [ih, Function.update_apply, List.length_cons]
    by_cases hik : i = k
    · rw [hik]
      simp only [if_pos rfl]
      push_cast
      ring
    · simp only [if_neg hik]

/-- The total number of prerequisite slots `in_degree[i]` is initialised to. -/
def indeg_total (concepts : List Concept) (i : ℕ) : ℕ :=
  ((concepts.filter (fun c => decide (c.id = i))).map
    (fun c => c.prerequisites.length)).sum

lemma in_degree0_eq (concepts : List Concept) (i : ℕ) :
    in_degree0 concepts i = (indeg_total concepts i : ℤ) := by
  suffices haux : ∀ (cs : List Concept) (f : ℕ → ℤ),
      (cs.foldl
        (fun f c =>
          c.prerequisites.foldl (fun g _ => Function.update g c.id (g c.id + 1)) f)
        f) i = f i + (indeg_total cs i : ℤ) by
    have := haux concepts (fun _ => 0)
    simpa [in_degree0] using this
  intro cs
  induction cs with
  | nil => intro f; simp [indeg_total]
  | cons c cs ih =>
    intro f
    simp only [List.foldl_cons]
    rw [ih, indeg_inner]
    have hit : indeg_total (c :: cs) i =
        (if c.id = i then c.prerequisites.length else 0) + indeg_total cs i := by
      unfold indeg_total
      rw [List.filter_cons]
      by_cases hci : c.id = i
      · rw [if_pos (by simpa using hci), if_pos hci]
        simp
      · rw [if_neg (by simpa using hci), if_neg hci]
        simp
    rw [hit]
    by_cases hic : i = c.id
    · rw [if_pos hic, if_pos (hic.symm)]
      push_cast
      ring
    · rw [if_neg hic, if_neg (fun h => hic h.symm)]
      push_cast
      ring

lemma filter_id_singleton (concepts : List Concept)
    (hN : (concepts.map Concept.id).Nodup) (c : Concept) (hc : c ∈ concepts) :
    concepts.filter (fun x => decide (x.id = c.id)) = [c] := by
  induction concepts with
  | nil => exact absurd hc (List.not_mem_nil c)
  | cons a cs ih =>
    rw [List.map_cons, List.nodup_cons] at hN
    rw [List.filter_cons]
    rcases List.mem_cons.mp hc with rfl | hmem
    · rw [if_pos (by simp)]
      congr 1
      rw [List.filter_eq_nil_iff]
      intro x hx
      simp only [decide_eq_true_eq]
      intro hxe
      exact hN.1 (hxe ▸ List.mem_map_of_mem Concept.id hx)
    · have hane : ¬ a.id = c.id := by
        intro hae
        exact hN.1 (hae ▸ List.mem_map_of_mem Concept.id hmem)
      rw [if_neg (by simpa using hane)]
      exact ih hN.2 hmem

lemma in_degree0_mem (concepts : List Concept)
    (hN : (concepts.map Concept.id).Nodup) (c : Concept) (hc : c ∈ concepts) :
    in_degree0 concepts c.id = (c.prerequisites.length : ℤ) := by
  rw [in_degree0_eq]
  unfold indeg_total
  rw [filter_id_singleton concepts hN c hc]
  simp

lemma in_degree0_not_mem (concepts : List Concept) (i : ℕ)
    (hi : ¬ i ∈ concepts.map Concept.id) : in_degree0 concepts i = 0 := by
  rw [in_degree0_eq]
  unfold indeg_total
  have hnil : concepts.filter (fun x => decide (x.id = i)) = [] := by
    rw [List.filter_eq_nil_iff]
    intro x hx
    simp only [decide_eq_true_eq]
    intro hxe
    exact hi (hxe ▸ List.mem_map_of_mem Concept.id hx)
  rw [hnil]
  simp

lemma graph_inner (ps : List ℕ) (x : ℕ) :
    ∀ (g : ℕ → List ℕ) (p : ℕ),
      (ps.foldl (fun g2 q => Function.update g2 q (g2 q ++ [x])) g) p =
        g p ++ List.replicate (ps.count p) x := by
  induction ps with
  | nil => intro g p; simp
  | cons q ps ih =>
    intro g p
    simp only [List.foldl_cons]
    rw [ih, Function.update_apply]
    by_cases hpq : p = q
    · subst hpq
      rw [if_pos rfl, List.count_cons_self, List.append_assoc]
      rfl
    · rw [if_neg hpq, List.count_cons_of_ne hpq]

lemma build_graph_eq (concepts : List Concept) (p : ℕ) :
    build_dependency_graph concepts p =
      (concepts.map (fun c => List.replicate (c.prerequisites.count p) c.id)).flatten := by
  suffices haux : ∀ (cs : List Concept) (g : ℕ → List ℕ),
      (cs.foldl
        (fun g c =>
          c.prerequisites.foldl (fun g2 q => Function.update g2 q (g2 q ++ [c.id])) g)
        g) p =
        g p ++ (cs.map (fun c => List.replicate (c.prerequisites.count p) c.id)).flatten by
    have := haux concepts (fun _ => [])
    simpa [build_dependency_graph] using this
  intro cs
  induction cs with
  | nil => intro g; simp
  | cons c cs ih =>
    intro g
    simp only [List.foldl_cons]
    rw [ih, graph_inner]
    simp [List.append_assoc]

lemma graph_count (concepts : List Concept) (e i : ℕ) :
    (build_dependency_graph concepts e).count i =
      ((concepts.filter (fun c => decide (c.id = i))).map
        (fun c => c.prerequisites.count e)).sum := by
  rw [build_graph_eq]
  induction concepts with
  | nil => simp
  | cons a cs ih =>
    rw [List.map_cons, List.flatten_cons, List.count_append, List.filter_cons, ih]
    by_cases hai : a.id = i
    · rw [if_pos (by simpa using hai)]
      rw [List.count_replicate, if_pos (by simpa using hai)]
      simp
    · rw [if_neg (by simpa using hai)]
      rw [List.count_replicate, if_neg (by simpa using hai)]
      simp

lemma graph_count_mem (concepts : List Concept)
    (hN : (concepts.map Concept.id).Nodup) (c : Concept) (hc : c ∈ concepts) (e : ℕ) :
    (build_dependency_graph concepts e).count c.id = c.prerequisites.count e := by
  rw [graph_count, filter_id_singleton concepts hN c hc]
  simp

lemma graph_count_not_mem (concepts : List Concept) (e i : ℕ)
    (hi : ¬ i ∈ concepts.map Concept.id) :
    (build_dependency_graph concepts e).count i = 0 := by
  rw [graph_count]
  have hnil : concepts.filter (fun x => decide (x.id = i)) = [] := by
    rw [List.filter_eq_nil_iff]
    intro x hx
    simp only [decide_eq_true_eq]
    intro hxe
    exact hi (hxe ▸ List.mem_map_of_mem Concept.id hx)
  rw [hnil]
  simp

lemma graph_mem_ids (concepts : List Concept) (e d : ℕ)
    (hd : d ∈ build_dependency_graph concepts e) : d ∈ concepts.map Concept.id := by
  rw [build_graph_eq] at hd
  rw [List.mem_flatten] at hd
  obtain ⟨l, hl, hdl⟩ := hd
  rw [List.mem_map] at hl
  obtain ⟨c, hc, rfl⟩ := hl
  rw [List.eq_of_mem_replicate hdl]
  exact List.mem_map_of_mem Concept.id hc

/-!
### Decomposing one pass of the dependent-processing loop

`newly cmap deps d` is the list of concepts enqueued while the loop walks
`deps` starting from in-degree table `d`: a dependent is appended exactly when
its counter hits zero after a decrement.
-/

/-- The concepts appended to the queue while processing `deps` from table `d`. -/
def newly (cmap : ℕ → Option Concept) : List ℕ → (ℕ → ℤ) → List Concept
  | [], _ => []
  | dep :: ds, d =>
    (if d dep - 1 = 0 then (cmap dep).toList else []) ++
      newly cmap ds (Function.update d dep (d dep - 1))

lemma process_dependents_cons (cmap : ℕ → Option Concept) (dep : ℕ) (ds : List ℕ)
    (q : List Concept) (d : ℕ → ℤ) :
    process_dependents cmap (dep :: ds) q d =
      process_dependents cmap ds
        (q ++ (if d dep - 1 = 0 then (cmap dep).toList else []))
        (Function.update d dep (d dep - 1)) := by
  unfold process_dependents
  simp only [List.foldl_cons]
  congr 1
  simp only [Function.update_same]
  by_cases h : d dep - 1 = 0
  · rw [if_pos h, if_pos h]
    cases hc : cmap dep with
    | none => simp [Option.toList]
    | some k => simp [Option.toList]
  · rw [if_neg h, if_neg h]
    simp

lemma process_dependents_nil (cmap : ℕ → Option Concept) (q : List Concept)
    (d : ℕ → ℤ) : process_dependents cmap [] q d = (q, d) := rfl

lemma process_dependents_snd (cmap : ℕ → Option Concept) (deps : List ℕ) :
    ∀ (q : List Concept) (d : ℕ → ℤ) (i : ℕ),
      (process_dependents cmap deps q d).2 i = d i - (deps.count i : ℤ) := by
  induction deps with
  | nil => intro q d i; rw [process_dependents_nil]; simp
  | cons dep ds ih =>
    intro q d i
    rw [process_dependents_cons, ih]
    rw [Function.update_apply]
    by_cases hid : i = dep
    · subst hid
      rw [if_pos rfl, List.count_cons_self]
      push_cast
      ring
    · rw [if_neg hid, List.count_cons_of_ne hid]

lemma process_dependents_fst (cmap : ℕ → Option Concept) (deps : List ℕ) :
    ∀ (q : List Concept) (d : ℕ → ℤ),
      (process_dependents cmap deps q d).1 = q ++ newly cmap deps d := by
  induction deps with
  | nil => intro q d; rw [process_dependents_nil]; simp [newly]
  | cons dep ds ih =>
    intro q d
    rw [process_dependents_cons, ih]
    rw [List.append_assoc]
    rfl

lemma newly_mem_weak (cmap : ℕ → Option Concept) :
    ∀ (deps : List ℕ) (d : ℕ → ℤ) (x : Concept), x ∈ newly cmap deps d →
      ∃ i, cmap i = some x ∧ 0 < d i ∧ d i ≤ (deps.count i : ℤ) := by
  intro deps
  induction deps with
  | nil => intro d x hx; simp [newly] at hx
  | cons dep ds ih =>
    intro d x hx
    unfold newly at hx
    rcases List.mem_append.mp hx with hh | ht
    · by_cases h : d dep - 1 = 0
      · rw [if_pos h] at hh
        refine ⟨dep, ?_, by omega, ?_⟩
        · cases hc : cmap dep with
          | none => rw [hc] at hh; simp [Option.toList] at hh
          | some k =>
            rw [hc] at hh
            simp only [Option.toList] at hh
            rw [List.mem_singleton] at hh
            rw [hh]
        · rw [List.count_cons_self]
          push_cast
          omega
      · rw [if_neg h] at hh
        simp at hh
    · obtain ⟨i, hc, hpos, hle⟩ := ih (Function.update d dep (d dep - 1)) x ht
      rw [Function.update_apply] at hpos hle
      by_cases hid : i = dep
      · subst hid
        rw [if_pos rfl] at hpos hle
        refine ⟨i, hc, by omega, ?_⟩
        rw [List.count_cons_self]
        push_cast
        omega
      · rw [if_neg hid] at hpos hle
        refine ⟨i, hc, hpos, ?_⟩
        rw [List.count_cons_of_ne hid]
        exact hle

lemma newly_ids_nodup (cmap : ℕ → Option Concept)
    (hkey : ∀ i x, cmap i = some x → x.id = i) :
    ∀ (deps : List ℕ) (d : ℕ → ℤ), ((newly cmap deps d).map Concept.id).Nodup := by
  intro deps
  induction deps with
  | nil => intro d; simp [newly]
  | cons dep ds ih =>
    intro d
    unfold newly
    rw [List.map_append, List.nodup_append]
    refine ⟨?_, ih _, ?_⟩
    · by_cases h : d dep - 1 = 0
      · rw [if_pos h]
        cases hc : cmap dep with
        | none => simp [Option.toList]
        | some k => simp [Option.toList]
      · rw [if_neg h]
        simp
    · intro a ha hb
      by_cases h : d dep - 1 = 0
      · rw [if_pos h] at ha
        cases hc : cmap dep with
        | none => rw [hc] at ha; simp [Option.toList] at ha
        | some k =>
          rw [hc] at ha
          simp only [Option.toList, List.map_cons, List.map_nil] at ha
          rw [List.mem_singleton] at ha
          rw [List.mem_map] at hb
          obtain ⟨y, hy, hyid⟩ := hb
          obtain ⟨i, hci, hpos, -⟩ := newly_mem_weak cmap ds _ y hy
          rw [Function.update_apply] at hpos
          have hyi : y.id = i := hkey i y hci
          have hki : k.id = dep := hkey dep k hc
          have hia : i = dep := by rw [← hyi, hyid, ha, hki]
          rw [if_pos hia] at hpos
          omega
      · rw [if_neg h] at ha
        simp at ha

lemma newly_char (cmap : ℕ → Option Concept)
    (hkey : ∀ i x, cmap i = some x → x.id = i) :
    ∀ (deps : List ℕ) (d : ℕ → ℤ),
      (∀ i, (deps.count i : ℤ) ≤ d i) →
      ∀ x : Concept,
        (x ∈ newly cmap deps d ↔
          cmap x.id = some x ∧ 0 < d x.id ∧ d x.id = (deps.count x.id : ℤ)) := by
  intro deps
  induction deps with
  | nil =>
    intro d hcnt x
    simp only [newly, List.not_mem_nil, List.count_nil, Nat.cast_zero, false_iff]
    rintro ⟨-, hpos, heq⟩
    omega
  | cons dep ds ih =>
    intro d hcnt x
    have hcnt2 : ∀ i, (ds.count i : ℤ) ≤ Function.update d dep (d dep - 1) i := by
      intro i
      rw [Function.update_apply]
      by_cases hid : i = dep
      · subst hid
        rw [if_pos rfl]
        have := hcnt i
        rw [List.count_cons_self] at this
        push_cast at this ⊢
        omega
      · rw [if_neg hid]
        have := hcnt i
        rw [List.count_cons_of_ne hid] at this
        exact this
    have hih := ih (Function.update d dep (d dep - 1)) hcnt2 x
    simp only [Function.update_apply] at hih
    unfold newly
    rw [List.mem_append, hih]
    constructor
    · rintro (hh | ⟨hcm, hpos, heq⟩)
      · by_cases h : d dep - 1 = 0
        · rw [if_pos h] at hh
          cases hc : cmap dep with
          | none => rw [hc] at hh; simp [Option.toList] at hh
          | some k =>
            rw [hc] at hh
            simp only [Option.toList] at hh
            rw [List.mem_singleton] at hh
            subst hh
            have hxid : x.id = dep := hkey dep x hc
            have hcd := hcnt dep
            rw [List.count_cons_self] at hcd
            rw [hxid, List.count_cons_self]
            refine ⟨hc, by omega, ?_⟩
            push_cast at hcd ⊢
            omega
        · rw [if_neg h] at hh
          simp at hh
      · by_cases hid : x.id = dep
        · rw [if_pos hid] at hpos heq
          rw [hid] at heq
          rw [hid, List.count_cons_self]
          refine ⟨hid ▸ hcm, by omega, ?_⟩
          push_cast at heq ⊢
          omega
        · rw [if_neg hid] at hpos heq
          refine ⟨hcm, hpos, ?_⟩
          rw [List.count_cons_of_ne hid]
          exact heq
    · rintro ⟨hcm, hpos, heq⟩
      by_cases hid : x.id = dep
      · rw [hid, List.count_cons_self] at heq
        by_cases hone : d dep = 1
        · refine Or.inl ?_
          rw [if_pos (by omega)]
          rw [← hid, hcm]
          simp [Option.toList]
        · refine Or.inr ?_
          rw [if_pos hid]
          have hdep : (ds.count dep : ℤ) ≤ d dep := by
            have := hcnt dep
            rw [List.count_cons_self] at this
            push_cast at this ⊢
            omega
          rw [hid] at hpos
          refine ⟨hcm, by push_cast at heq ⊢; omega, ?_⟩
          rw [hid]
          push_cast at heq ⊢
          omega
      · rw [List.count_cons_of_ne hid] at heq
        exact Or.inr ⟨hcm, by rw [if_neg hid]; exact hpos, by rw [if_neg hid]; exact heq⟩

/-!
### Termination of the while loop

Potential: queue length plus number of ids whose counter is still positive.
Every iteration pops one concept and enqueues only concepts whose counter just
moved from positive to zero, so the potential strictly decreases.
-/

/-- Number of ids in `S` whose in-degree counter is positive. -/
def pos_count (S : List ℕ) (indeg : ℕ → ℤ) : ℕ :=
  (S.filter (fun i => decide (0 < indeg i))).length

/-- Loop potential of a `kahn_loop` state. -/
def phi (S : List ℕ) (queue : List Concept) (indeg : ℕ → ℤ) : ℕ :=
  queue.length + pos_count S indeg

lemma pos_count_drop :
    ∀ (S : List ℕ) (d d2 : ℕ → ℤ) (ids : List ℕ), S.Nodup → ids.Nodup →
      (∀ i ∈ ids, i ∈ S) → (∀ i ∈ ids, 0 < d i) → (∀ i ∈ ids, d2 i ≤ 0) →
      (∀ i, d2 i ≤ d i) →
      pos_count S d2 + ids.length ≤ pos_count S d := by
  intro S
  induction S with
  | nil =>
    intro d d2 ids hS hids hsub hpos hneg hmono
    have hnil : ids = [] :=
      List.eq_nil_iff_forall_not_mem.mpr (fun i hi => (List.not_mem_nil i) (hsub i hi))
    subst hnil
    simp [pos_count]
  | cons s S ih =>
    intro d d2 ids hS hids hsub hpos hneg hmono
    rw [List.nodup_cons] at hS
    unfold pos_count
    simp only [List.filter_cons, decide_eq_true_eq]
    by_cases hsid : s ∈ ids
    · have hds : 0 < d s := hpos s hsid
      have hd2s : ¬ 0 < d2 s := by have := hneg s hsid; omega
      rw [if_pos hds, if_neg hd2s, List.length_cons]
      have hlen : (ids.erase s).length = ids.length - 1 := List.length_erase_of_mem hsid
      have hlenpos : 1 ≤ ids.length := by
        cases ids with
        | nil => exact absurd hsid (List.not_mem_nil s)
        | cons a l => simp
      have hrec := ih d d2 (ids.erase s) hS.2 (hids.erase s)
        (fun i hi => by
          rcases (hids.mem_erase_iff).mp hi with ⟨hne, hmem⟩
          rcases List.mem_cons.mp (hsub i hmem) with rfl | hS2
          · exact absurd rfl hne
          · exact hS2)
        (fun i hi => hpos i ((hids.mem_erase_iff).mp hi).2)
        (fun i hi => hneg i ((hids.mem_erase_iff).mp hi).2)
        hmono
      unfold pos_count at hrec
      omega
    · have hsub2 : ∀ i ∈ ids, i ∈ S := by
        intro i hi
        rcases List.mem_cons.mp (hsub i hi) with rfl | hS2
        · exact absurd hi hsid
        · exact hS2
      have hrec := ih d d2 ids hS.2 hids hsub2 hpos hneg hmono
      unfold pos_count at hrec
      by_cases hd2 : 0 < d2 s
      · have hd : 0 < d s := by have := hmono s; omega
        rw [if_pos hd, if_pos hd2, List.length_cons, List.length_cons]
        omega
      · rw [if_neg hd2]
        by_cases hd : 0 < d s
        · rw [if_pos hd, List.length_cons]
          omega
        · rw [if_neg hd]
          omega

/-- The potential strictly decreases across one iteration of the loop. -/
lemma phi_step (graph : ℕ → List ℕ) (cmap : ℕ → Option Concept) (S : List ℕ)
    (hS : S.Nodup) (hdom : ∀ i x, cmap i = some x → i ∈ S)
    (hkey : ∀ i x, cmap i = some x → x.id = i)
    (queue : List Concept) (indeg : ℕ → ℤ) (e : Concept) (rest : List Concept)
    (hsort : sort_by_difficulty queue = e :: rest) :
    phi S (process_dependents cmap (graph e.id) rest indeg).1
        (process_dependents cmap (graph e.id) rest indeg).2 + 1 ≤
      phi S queue indeg := by
  have hfst := process_dependents_fst cmap (graph e.id) rest indeg
  have hsnd : (process_dependents cmap (graph e.id) rest indeg).2 =
      fun i => indeg i - ((graph e.id).count i : ℤ) :=
    funext (process_dependents_snd cmap (graph e.id) rest indeg)
  have hqlen : rest.length + 1 = queue.length := by
    have hl := (sort_by_difficulty_perm queue).length_eq
    rw [hsort] at hl
    simpa using hl
  have hdrop : pos_count S (fun i => indeg i - ((graph e.id).count i : ℤ)) +
      ((newly cmap (graph e.id) indeg).map Concept.id).length ≤ pos_count S indeg := by
    refine pos_count_drop S indeg _ _ hS
      (newly_ids_nodup cmap hkey (graph e.id) indeg) ?_ ?_ ?_ ?_
    · intro i hi
      rw [List.mem_map] at hi
      obtain ⟨x, hx, rfl⟩ := hi
      obtain ⟨j, hcj, -, -⟩ := newly_mem_weak cmap (graph e.id) indeg x hx
      rw [← hkey j x hcj]  at hcj
      exact hdom x.id x hcj
    · intro i hi
      rw [List.mem_map] at hi
      obtain ⟨x, hx, rfl⟩ := hi
      obtain ⟨j, hcj, hpos, -⟩ := newly_mem_weak cmap (graph e.id) indeg x hx
      rw [← hkey j x hcj] at hpos
      exact hpos
    · intro i hi
      rw [List.mem_map] at hi
      obtain ⟨x, hx, rfl⟩ := hi
      obtain ⟨j, hcj, -, hle⟩ := newly_mem_weak cmap (graph e.id) indeg x hx
      rw [← hkey j x hcj] at hle
      have hc : (0 : ℤ) ≤ ((graph e.id).count x.id : ℤ) := by positivity
      omega
    · intro i
      have hc : (0 : ℤ) ≤ ((graph e.id).count i : ℤ) := by positivity
      omega
  unfold phi
  rw [hfst, hsnd]
  rw [List.length_append, List.length_map] at *
  omega

lemma kahn_loop_nil (graph : ℕ → List ℕ) (cmap : ℕ → Option Concept) :
    ∀ (fuel : ℕ) (indeg : ℕ → ℤ), kahn_loop graph cmap fuel [] indeg = [] := by
  intro fuel indeg
  cases fuel with
  | zero => rfl
  | succ f => rfl

/-- The result of the loop does not depend on the fuel once the fuel covers
the potential: the loop always reaches the empty queue within the budget. -/
lemma kahn_loop_fuel_independent (graph : ℕ → List ℕ) (cmap : ℕ → Option Concept)
    (S : List ℕ) (hS : S.Nodup) (hdom : ∀ i x, cmap i = some x → i ∈ S)
    (hkey : ∀ i x, cmap i = some x → x.id = i) :
    ∀ (f1 f2 : ℕ) (queue : List Concept) (indeg : ℕ → ℤ),
      phi S queue indeg ≤ f1 → phi S queue indeg ≤ f2 →
      kahn_loop graph cmap f1 queue indeg = kahn_loop graph cmap f2 queue indeg := by
  intro f1
  induction f1 with
  | zero =>
    intro f2 queue indeg h1 h2
    have hq : queue = [] := by
      have hl : queue.length = 0 := by unfold phi at h1; omega
      exact List.length_eq_zero.mp hl
    subst hq
    rw [kahn_loop_nil, kahn_loop_nil]
  | succ f1 ih =>
    intro f2 queue indeg h1 h2
    cases hs : sort_by_difficulty queue with
    | nil =>
      have hq : queue = [] := by
        have hl := (sort_by_difficulty_perm queue).length_eq
        rw [hs] at hl
        exact List.length_eq_zero.mp hl.symm
      subst hq
      rw [kahn_loop_nil, kahn_loop_nil]
    | cons e rest =>
      have hq : queue ≠ [] := by
        intro h
        subst h
        rw [show sort_by_difficulty [] = [] from rfl] at hs
        exact List.noConfusion hs
      cases f2 with
      | zero =>
        exfalso
        have hql : 0 < queue.length := List.length_pos.mpr hq
        unfold phi at h2
        omega
      | succ f2 =>
        simp only [kahn_loop]
        rw [hs]
        simp only
        congr 1
        have hstep := phi_step graph cmap S hS hdom hkey queue indeg e rest hs
        exact ih f2 _ _ (by omega) (by omega)

/-!
### The loop invariant of `_topological_sort`
-/

/-- Invariant tying the emitted prefix, pending queue and in-degree table of
the while loop of `_topological_sort` (for a duplicate-free concept set). -/
structure KahnInv (concepts emitted queue : List Concept) (indeg : ℕ → ℤ) : Prop where
  sub_emitted : ∀ x ∈ emitted, x ∈ concepts
  sub_queue : ∀ x ∈ queue, x ∈ concepts
  nodup_ids : ((emitted ++ queue).map Concept.id).Nodup
  deg_mem : ∀ c ∈ concepts,
    indeg c.id =
      (((c.prerequisites.filter
        (fun p => decide (p ∉ emitted.map Concept.id))).length : ℤ))
  deg_out : ∀ i, i ∉ concepts.map Concept.id → indeg i = 0
  ready : ∀ x ∈ queue, ∀ p ∈ x.prerequisites, p ∈ emitted.map Concept.id
  ordered : ∀ (j : ℕ) (hj : j < emitted.length),
    ∀ p ∈ (emitted.get ⟨j, hj⟩).prerequisites, p ∈ (emitted.take j).map Concept.id
  complete : ∀ c ∈ concepts,
    ((∀ p ∈ c.prerequisites, p ∈ emitted.map Concept.id) ↔ (c ∈ emitted ∨ c ∈ queue))

lemma length_filter_not_mem_snoc (l2 ids : List ℕ) (a : ℕ) (ha : a ∉ ids) :
    (l2.filter (fun p => decide (p ∉ ids ++ [a]))).length + l2.count a =
      (l2.filter (fun p => decide (p ∉ ids))).length := by
  induction l2 with
  | nil => simp
  | cons p tl ih =>
    simp only [List.filter_cons, List.count_cons, decide_eq_true_eq, beq_iff_eq]
    by_cases hpids : p ∈ ids
    · have hpa : ¬ p = a := by
        rintro rfl
        exact ha hpids
      rw [if_neg (show ¬ p ∉ ids ++ [a] by simp [hpids]),
        if_neg (not_not.mpr hpids), if_neg hpa]
      omega
    · by_cases hpa : p = a
      · subst hpa
        rw [if_neg (show ¬ p ∉ ids ++ [p] by simp),
          if_pos (show p ∉ ids from hpids), if_pos rfl]
        rw [List.length_cons]
        omega
      · rw [if_pos (show p ∉ ids ++ [a] by simp [hpids, hpa]),
          if_pos (show p ∉ ids from hpids), if_neg hpa]
        rw [List.length_cons, List.length_cons]
        omega

/-- One iteration of the while loop preserves the invariant: pop the head `e`
of the difficulty-sorted queue, emit it, decrement its dependents, enqueue the
newly-zero ones. -/
lemma kahn_inv_step (concepts : List Concept) (hN : (concepts.map Concept.id).Nodup)
    (emitted queue : List Concept) (indeg : ℕ → ℤ)
    (inv : KahnInv concepts emitted queue indeg)
    (e : Concept) (rest : List Concept)
    (hsort : sort_by_difficulty queue = e :: rest) :
    KahnInv concepts (emitted ++ [e])
      (process_dependents (concept_map concepts)
        (build_dependency_graph concepts e.id) rest indeg).1
      (process_dependents (concept_map concepts)
        (build_dependency_graph concepts e.id) rest indeg).2 := by
  have hfst := process_dependents_fst (concept_map concepts)
    (build_dependency_graph concepts e.id) rest indeg
  have hsnd : (process_dependents (concept_map concepts)
      (build_dependency_graph concepts e.id) rest indeg).2 =
      fun i => indeg i - (((build_dependency_graph concepts e.id).count i : ℤ)) :=
    funext (process_dependents_snd (concept_map concepts)
      (build_dependency_graph concepts e.id) rest indeg)
  rw [hfst, hsnd]
  set cmap := concept_map concepts with hcmap
  set deps := build_dependency_graph concepts e.id with hdeps
  have hkey : ∀ i x, cmap i = some x → x.id = i :=
    fun i x h => (concept_map_sound concepts i x h).2
  have hmem : ∀ i x, cmap i = some x → x ∈ concepts :=
    fun i x h => (concept_map_sound concepts i x h).1
  have hperm : queue.Perm (e :: rest) := by
    have hp := sort_by_difficulty_perm queue
    rw [hsort] at hp
    exact hp.symm
  have he_q : e ∈ queue := hperm.mem_iff.mpr (List.mem_cons_self e rest)
  have he_c : e ∈ concepts := inv.sub_queue e he_q
  have hrest_q : ∀ x ∈ rest, x ∈ queue :=
    fun x hx => hperm.mem_iff.mpr (List.mem_cons_of_mem e hx)
  have hnodup_er : ((emitted ++ e :: rest).map Concept.id).Nodup := by
    have hp : (emitted ++ queue).Perm (emitted ++ e :: rest) :=
      List.Perm.append_left emitted hperm
    exact ((hp.map Concept.id).nodup_iff).mp inv.nodup_ids
  have heid_not_em : e.id ∉ emitted.map Concept.id := by
    rw [List.map_append, List.nodup_append] at hnodup_er
    intro hmem2
    exact hnodup_er.2.2 hmem2
      (by rw [List.map_cons]; exact List.mem_cons_self e.id _)
  -- counts on the dependent list
  have hcount_mem : ∀ c ∈ concepts, deps.count c.id = c.prerequisites.count e.id :=
    fun c hc => graph_count_mem concepts hN c hc e.id
  have hcount_out : ∀ i, i ∉ concepts.map Concept.id → deps.count i = 0 :=
    fun i hi => graph_count_not_mem concepts e.id i hi
  have hcount_filter : ∀ c : Concept,
      (c.prerequisites.filter
        (fun p => decide (p ∉ emitted.map Concept.id))).count e.id =
      c.prerequisites.count e.id :=
    fun c => List.count_filter (by simpa using heid_not_em)
  have hcnt : ∀ i, ((deps.count i : ℤ)) ≤ indeg i := by
    intro i
    by_cases hi : i ∈ concepts.map Concept.id
    · rw [List.mem_map] at hi
      obtain ⟨c, hc, rfl⟩ := hi
      rw [hcount_mem c hc, inv.deg_mem c hc, ← hcount_filter c]
      exact_mod_cast List.count_le_length _ _
    · rw [hcount_out i hi, inv.deg_out i hi]
      simp
  have hchar := newly_char cmap hkey deps indeg hcnt
  -- semantic reading of the newly enqueued concepts
  have hnew_sem : ∀ x : Concept, x ∈ newly cmap deps indeg ↔
      (x ∈ concepts ∧ (∃ p ∈ x.prerequisites, p ∉ emitted.map Concept.id) ∧
        (∀ p ∈ x.prerequisites, p ∉ emitted.map Concept.id → p = e.id)) := by
    intro x
    rw [hchar x]
    constructor
    · rintro ⟨hcm, hpos, heq⟩
      have hxc : x ∈ concepts := hmem _ _ hcm
      have hU := inv.deg_mem x hxc
      rw [hU] at hpos heq
      refine ⟨hxc, ?_, ?_⟩
      · have hlen : 0 < (x.prerequisites.filter
            (fun p => decide (p ∉ emitted.map Concept.id))).length := by
          exact_mod_cast hpos
        obtain ⟨p, hp⟩ := List.exists_mem_of_length_pos hlen
        exact ⟨p, List.mem_of_mem_filter hp, by simpa using List.of_mem_filter hp⟩
      · intro p hp hpn
        have hpf : p ∈ x.prerequisites.filter
            (fun p => decide (p ∉ emitted.map Concept.id)) :=
          List.mem_filter.mpr ⟨hp, by simpa using hpn⟩
        have hcnteq : (x.prerequisites.filter
            (fun p => decide (p ∉ emitted.map Concept.id))).count e.id =
            (x.prerequisites.filter
              (fun p => decide (p ∉ emitted.map Concept.id))).length := by
          rw [hcount_filter x]
          rw [hcount_mem x hxc] at heq
          exact_mod_cast heq.symm
        have hall := List.count_eq_length.mp hcnteq
        exact (hall p hpf).symm
    · rintro ⟨hxc, ⟨p0, hp0, hp0n⟩, hall⟩
      have hcm : cmap x.id = some x := concept_map_self concepts hN x hxc
      have hU := inv.deg_mem x hxc
      have hp0f : p0 ∈ x.prerequisites.filter
          (fun p => decide (p ∉ emitted.map Concept.id)) :=
        List.mem_filter.mpr ⟨hp0, by simpa using hp0n⟩
      have hlen : 0 < (x.prerequisites.filter
          (fun p => decide (p ∉ emitted.map Concept.id))).length :=
        List.length_pos.mpr (List.ne_nil_of_mem hp0f)
      refine ⟨hcm, by rw [hU]; exact_mod_cast hlen, ?_⟩
      rw [hU, hcount_mem x hxc, ← hcount_filter x]
      have hcnteq : (x.prerequisites.filter
          (fun p => decide (p ∉ emitted.map Concept.id))).count e.id =
          (x.prerequisites.filter
            (fun p => decide (p ∉ emitted.map Concept.id))).length := by
        refine List.count_eq_length.mpr ?_
        intro b hb
        exact (hall b (List.mem_of_mem_filter hb)
          (by simpa using List.of_mem_filter hb)).symm
      exact_mod_cast hcnteq.symm
  have hnew_fresh : ∀ x ∈ newly cmap deps indeg, x ∉ emitted ∧ x ∉ queue := by
    intro x hx
    obtain ⟨hxc, ⟨p0, hp0, hp0n⟩, -⟩ := (hnew_sem x).mp hx
    have hnot : ¬ (∀ p ∈ x.prerequisites, p ∈ emitted.map Concept.id) := by
      intro hforall
      exact hp0n (hforall p0 hp0)
    have hnotor := (inv.complete x hxc).not.mp hnot
    push_neg at hnotor
    exact hnotor
  have hnew_id_fresh : ∀ x ∈ newly cmap deps indeg,
      x.id ∉ (emitted ++ e :: rest).map Concept.id := by
    intro x hx hxid
    rw [List.mem_map] at hxid
    obtain ⟨y, hy, hyid⟩ := hxid
    have hyc : y ∈ concepts := by
      rcases List.mem_append.mp hy with h1 | h2
      · exact inv.sub_emitted y h1
      · rcases List.mem_cons.mp h2 with rfl | h3
        · exact he_c
        · exact inv.sub_queue y (hrest_q y h3)
    have hxc : x ∈ concepts := ((hnew_sem x).mp hx).1
    have hxy : y = x := concept_id_inj concepts hN hyc hxc hyid
    subst hxy
    obtain ⟨hne, hnq⟩ := hnew_fresh y hx
    rcases List.mem_append.mp hy with h1 | h2
    · exact hne h1
    · rcases List.mem_cons.mp h2 with rfl | h3
      · exact hnq he_q
      · exact hnq (hrest_q y h3)
  refine ⟨?_, ?_, ?_, ?_, ?_, ?_, ?_, ?_⟩
  · -- sub_emitted
    intro x hx
    rcases List.mem_append.mp hx with h1 | h2
    · exact inv.sub_emitted x h1
    · rw [List.mem_singleton] at h2
      subst h2
      exact he_c
  · -- sub_queue
    intro x hx
    rcases List.mem_append.mp hx with h1 | h2
    · exact inv.sub_queue x (hrest_q x h1)
    · exact ((hnew_sem x).mp h2).1
  · -- nodup_ids
    have hshape : (emitted ++ [e]) ++ (rest ++ newly cmap deps indeg) =
        (emitted ++ e :: rest) ++ newly cmap deps indeg := by
      simp [List.append_assoc]
    rw [hshape, List.map_append, List.nodup_append]
    refine ⟨hnodup_er, newly_ids_nodup cmap hkey deps indeg, ?_⟩
    intro a ha hb
    rw [List.mem_map] at hb
    obtain ⟨x, hx, rfl⟩ := hb
    exact hnew_id_fresh x hx ha
  · -- deg_mem
    intro c hc
    have hU := inv.deg_mem c hc
    have hsnoc := length_filter_not_mem_snoc c.prerequisites
      (emitted.map Concept.id) e.id heid_not_em
    have hfeq : (c.prerequisites.filter
        (fun p => decide (p ∉ (emitted ++ [e]).map Concept.id))) =
        (c.prerequisites.filter
          (fun p => decide (p ∉ emitted.map Concept.id ++ [e.id]))) := by
      apply List.filter_congr
      intro p hp
      simp [List.mem_append]
    rw [hfeq]
    rw [hcount_mem c hc]
    rw [hU] at *
    have := hsnoc
    omega
  · -- deg_out
    intro i hi
    rw [hcount_out i hi, inv.deg_out i hi]
    simp
  · -- ready
    intro x hx p hp
    have hgoal : p ∈ emitted.map Concept.id ∨ p = e.id →
        p ∈ (emitted ++ [e]).map Concept.id := by
      intro h
      rw [List.map_append, List.mem_append]
      rcases h with h | h
      · exact Or.inl h
      · exact Or.inr (by simp [h])
    rcases List.mem_append.mp hx with h1 | h2
    · exact hgoal (Or.inl (inv.ready x (hrest_q x h1) p hp))
    · obtain ⟨-, -, hall⟩ := (hnew_sem x).mp h2
      by_cases hpe : p ∈ emitted.map Concept.id
      · exact hgoal (Or.inl hpe)
      · exact hgoal (Or.inr (hall p hp hpe))
  · -- ordered
    intro j hj p hp
    rw [List.length_append, List.length_singleton] at hj
    by_cases hjlt : j < emitted.length
    · have hget : (emitted ++ [e]).get ⟨j, by rw [List.length_append]; omega⟩ =
          emitted.get ⟨j, hjlt⟩ := by
        rw [List.get_eq_getElem, List.get_eq_getElem]
        exact List.getElem_append_left hjlt
      rw [hget] at hp
      have htake : (emitted ++ [e]).take j = emitted.take j :=
        List.take_append_of_le_length (by omega)
      rw [htake]
      exact inv.ordered j hjlt p hp
    · have hje : j = emitted.length := by omega
      subst hje
      have hget : (emitted ++ [e]).get ⟨emitted.length, by simp⟩ = e := by
        rw [List.get_eq_getElem]
        exact List.getElem_concat_length emitted e _ rfl _
      rw [hget] at hp
      have htake : (emitted ++ [e]).take emitted.length = emitted := by
        rw [List.take_append_of_le_length (le_refl _), List.take_length]
      rw [htake]
      exact inv.ready e he_q p hp
  · -- complete
    intro c hc
    constructor
    · intro hall
      by_cases hold : ∀ p ∈ c.prerequisites, p ∈ emitted.map Concept.id
      · rcases (inv.complete c hc).mp hold with h1 | h2
        · exact Or.inl (List.mem_append.mpr (Or.inl h1))
        · rcases List.mem_cons.mp (hperm.mem_iff.mp h2) with rfl | h3
          · exact Or.inl (List.mem_append.mpr (Or.inr (List.mem_singleton.mpr rfl)))
          · exact Or.inr (List.mem_append.mpr (Or.inl h3))
      · push_neg at hold
        obtain ⟨p0, hp0, hp0n⟩ := hold
        refine Or.inr (List.mem_append.mpr (Or.inr ?_))
        rw [hnew_sem c]
        refine ⟨hc, ⟨p0, hp0, hp0n⟩, ?_⟩
        intro p hp hpn
        have := hall p hp
        rw [List.map_append, List.mem_append] at this
        rcases this with h | h
        · exact absurd h hpn
        · simpa using h
    · intro hor p hp
      have hweak : p ∈ emitted.map Concept.id → p ∈ (emitted ++ [e]).map Concept.id := by
        intro h
        rw [List.map_append, List.mem_append]
        exact Or.inl h
      rcases hor with h1 | h2
      · rcases List.mem_append.mp h1 with ha | hb
        · exact hweak ((inv.complete c hc).mpr (Or.inl ha) p hp)
        · rw [List.mem_singleton] at hb
          subst hb
          exact hweak (inv.ready c he_q p hp)
      · rcases List.mem_append.mp h2 with ha | hb
        · exact hweak (inv.ready c (hrest_q c ha) p hp)
        · obtain ⟨-, -, hall⟩ := (hnew_sem c).mp hb
          by_cases hpe : p ∈ emitted.map Concept.id
          · exact hweak hpe
          · rw [List.map_append, List.mem_append]
            exact Or.inr (by simp [hall p hp hpe])

/-- Running the loop from an invariant state with enough fuel drains the queue
and preserves the invariant. -/
lemma kahn_run (concepts : List Concept) (hN : (concepts.map Concept.id).Nodup) :
    ∀ (fuel : ℕ) (emitted queue : List Concept) (indeg : ℕ → ℤ),
      KahnInv concepts emitted queue indeg →
      phi ((concepts.map Concept.id).dedup) queue indeg ≤ fuel →
      ∃ d2, KahnInv concepts
        (emitted ++ kahn_loop (build_dependency_graph concepts)
          (concept_map concepts) fuel queue indeg) [] d2 := by
  have hdom : ∀ i x, concept_map concepts i = some x →
      i ∈ (concepts.map Concept.id).dedup := by
    intro i x h
    obtain ⟨hm, hid⟩ := concept_map_sound concepts i x h
    rw [List.mem_dedup, ← hid]
    exact List.mem_map_of_mem Concept.id hm
  have hkey : ∀ i x, concept_map concepts i = some x → x.id = i :=
    fun i x h => (concept_map_sound concepts i x h).2
  intro fuel
  induction fuel with
  | zero =>
    intro emitted queue indeg inv hphi
    have hq : queue = [] := by
      have hl : queue.length = 0 := by unfold phi at hphi; omega
      exact List.length_eq_zero.mp hl
    subst hq
    rw [kahn_loop_nil, List.append_nil]
    exact ⟨indeg, inv⟩
  | succ fuel ih =>
    intro emitted queue indeg inv hphi
    cases hs : sort_by_difficulty queue with
    | nil =>
      have hq : queue = [] := by
        have hl := (sort_by_difficulty_perm queue).length_eq
        rw [hs] at hl
        exact List.length_eq_zero.mp hl.symm
      subst hq
      rw [kahn_loop_nil, List.append_nil]
      exact ⟨indeg, inv⟩
    | cons e rest =>
      simp only [kahn_loop]
      rw [hs]
      simp only
      have hstepinv := kahn_inv_step concepts hN emitted queue indeg inv e rest hs
      have hstep := phi_step (build_dependency_graph concepts) (concept_map concepts)
        ((concepts.map Concept.id).dedup) (List.nodup_dedup _) hdom hkey
        queue indeg e rest hs
      obtain ⟨d2, hd2⟩ := ih (emitted ++ [e]) _ _ hstepinv (by omega)
      refine ⟨d2, ?_⟩
      simpa [List.append_assoc] using hd2

/-- The invariant holds when the loop starts. -/
lemma kahn_inv_init (concepts : List Concept)
    (hN : (concepts.map Concept.id).Nodup) :
    KahnInv concepts []
      (concepts.filter (fun c => decide (in_degree0 concepts c.id = 0)))
      (in_degree0 concepts) := by
  refine ⟨?_, ?_, ?_, ?_, ?_, ?_, ?_, ?_⟩
  · intro x hx
    exact absurd hx (List.not_mem_nil x)
  · intro x hx
    exact List.mem_of_mem_filter hx
  · rw [List.nil_append]
    exact List.Nodup.sublist
      (List.Sublist.map Concept.id (List.filter_sublist concepts)) hN
  · intro c hc
    have hself : (c.prerequisites.filter
        (fun p => decide (p ∉ ([] : List Concept).map Concept.id))) =
        c.prerequisites := by
      rw [List.filter_eq_self]
      intro p hp
      simp
    rw [hself]
    exact in_degree0_mem concepts hN c hc
  · exact fun i hi => in_degree0_not_mem concepts i hi
  · intro x hx p hp
    have hx0 : in_degree0 concepts x.id = 0 := by
      simpa using List.of_mem_filter hx
    rw [in_degree0_mem concepts hN x (List.mem_of_mem_filter hx)] at hx0
    have hnil : x.prerequisites = [] :=
      List.length_eq_zero.mp (by exact_mod_cast hx0)
    rw [hnil] at hp
    exact absurd hp (List.not_mem_nil p)
  · intro j hj
    simp at hj
  · intro c hc
    constructor
    · intro hall
      have hnil : c.prerequisites = [] := by
        rw [List.eq_nil_iff_forall_not_mem]
        intro p hp
        have := hall p hp
        simp at this
      refine Or.inr (List.mem_filter.mpr ⟨hc, ?_⟩)
      simp [in_degree0_mem concepts hN c hc, hnil]
    · rintro (h1 | h2)
      · exact absurd h1 (List.not_mem_nil c)
      · intro p hp
        have h0 : in_degree0 concepts c.id = 0 := by
          simpa using List.of_mem_filter h2
        rw [in_degree0_mem concepts hN c hc] at h0
        have hnil : c.prerequisites = [] :=
          List.length_eq_zero.mp (by exact_mod_cast h0)
        rw [hnil] at hp
        exact absurd hp (List.not_mem_nil p)

/-- The initial potential fits inside the fuel budget of `topological_sort`. -/
lemma phi_init_le (concepts : List Concept) :
    phi ((concepts.map Concept.id).dedup)
      (concepts.filter (fun c => decide (in_degree0 concepts c.id = 0)))
      (in_degree0 concepts) ≤ concepts.length + concepts.length := by
  unfold phi pos_count
  have h1 := List.length_filter_le
    (fun c => decide (in_degree0 concepts c.id = 0)) concepts
  have h2 := List.length_filter_le
    (fun i => decide (0 < in_degree0 concepts i)) ((concepts.map Concept.id).dedup)
  have h3 : ((concepts.map Concept.id).dedup).length ≤ concepts.length := by
    have := (List.dedup_sublist (concepts.map Concept.id)).length_le
    rw [List.length_map] at this
    exact this
  omega

/-- After `topological_sort` finishes, the loop invariant holds with an empty
queue: this packages every final-state fact used by C5, C6 and C10. -/
lemma topological_sort_final (concepts : List Concept)
    (hN : (concepts.map Concept.id).Nodup) :
    ∃ d2, KahnInv concepts (topological_sort concepts) [] d2 := by
  have h := kahn_run concepts hN (concepts.length + concepts.length) []
    (concepts.filter (fun c => decide (in_degree0 concepts c.id = 0)))
    (in_degree0 concepts) (kahn_inv_init concepts hN) (phi_init_le concepts)
  simpa [topological_sort] using h

/-- Acyclicity of the prerequisite graph, expressed by a rank function that
strictly decreases along every prerequisite edge (for a finite graph this is
equivalent to the absence of directed prerequisite cycles). -/
def Acyclic (concepts : List Concept) : Prop :=
  ∃ rank : ℕ → ℕ, ∀ c ∈ concepts, ∀ p ∈ c.prerequisites, rank p < rank c.id

lemma exists_min_rank (rank : ℕ → ℕ) :
    ∀ (l : List Concept), l ≠ [] → ∃ m ∈ l, ∀ x ∈ l, rank m.id ≤ rank x.id := by
  intro l
  induction l with
  | nil => intro h; exact absurd rfl h
  | cons a l ih =>
    intro h
    by_cases hl : l = []
    · subst hl
      refine ⟨a, List.mem_cons_self a [], ?_⟩
      intro x hx
      rcases List.mem_cons.mp hx with rfl | h2
      · exact le_refl _
      · exact absurd h2 (List.not_mem_nil x)
    · obtain ⟨m, hm, hmin⟩ := ih hl
      by_cases hcmp : rank a.id ≤ rank m.id
      · refine ⟨a, List.mem_cons_self a l, ?_⟩
        intro x hx
        rcases List.mem_cons.mp hx with rfl | h2
        · exact le_refl _
        · exact le_trans hcmp (hmin x h2)
      · refine ⟨m, List.mem_cons_of_mem a hm, ?_⟩
        intro x hx
        rcases List.mem_cons.mp hx with rfl | h2
        · omega
        · exact hmin x h2

/-- On an acyclic set whose prerequisite ids all resolve, every concept is
emitted. -/
lemma topological_sort_coverage (concepts : List Concept)
    (hN : (concepts.map Concept.id).Nodup)
    (hclosed : ∀ c ∈ concepts, ∀ p ∈ c.prerequisites, p ∈ concepts.map Concept.id)
    (hacyclic : Acyclic concepts) :
    ∀ c ∈ concepts, c ∈ topological_sort concepts := by
  obtain ⟨d2, inv⟩ := topological_sort_final concepts hN
  obtain ⟨rank, hrank⟩ := hacyclic
  by_contra hcon
  push_neg at hcon
  obtain ⟨c0, hc0, hc0n⟩ := hcon
  have hc0U : c0 ∈ concepts.filter
      (fun c => decide (c ∉ topological_sort concepts)) :=
    List.mem_filter.mpr ⟨hc0, by simpa using hc0n⟩
  have hUne : concepts.filter (fun c => decide (c ∉ topological_sort concepts)) ≠ [] := by
    intro h
    rw [h] at hc0U
    exact absurd hc0U (List.not_mem_nil c0)
  obtain ⟨m, hmU, hmin⟩ := exists_min_rank rank _ hUne
  have hmc : m ∈ concepts := List.mem_of_mem_filter hmU
  have hmn : m ∉ topological_sort concepts := by simpa using List.of_mem_filter hmU
  have hcomp := inv.complete m hmc
  simp only [List.not_mem_nil, or_false] at hcomp
  have hnall : ¬ ∀ p ∈ m.prerequisites,
      p ∈ (topological_sort concepts).map Concept.id := by
    intro hall
    exact hmn (hcomp.mp hall)
  push_neg at hnall
  obtain ⟨p, hp, hpn⟩ := hnall
  obtain ⟨cp, hcpc, hcpid⟩ := List.mem_map.mp (hclosed m hmc p hp)
  have hcpn : cp ∉ topological_sort concepts := by
    intro hmem2
    exact hpn (hcpid ▸ List.mem_map_of_mem Concept.id hmem2)
  have hcpU : cp ∈ concepts.filter
      (fun c => decide (c ∉ topological_sort concepts)) :=
    List.mem_filter.mpr ⟨hcpc, by simpa using hcpn⟩
  have h1 : rank m.id ≤ rank cp.id := hmin cp hcpU
  have h2 : rank p < rank m.id := hrank m hmc p hp
  rw [hcpid] at h1
  omega

/-- `cyc` is a directed prerequisite cycle inside `concepts`: every element is
a prerequisite of its successor, wrapping around at the end. -/
def IsCycleIn (concepts cyc : List Concept) : Prop :=
  cyc ≠ [] ∧ (∀ c ∈ cyc, c ∈ concepts) ∧
  List.Chain' (fun a b => a.id ∈ b.prerequisites) cyc ∧
  ∀ (h : cyc ≠ []), (cyc.getLast h).id ∈ (cyc.head h).prerequisites

lemma cycle_pred (concepts cyc : List Concept) (hcyc : IsCycleIn concepts cyc) :
    ∀ c ∈ cyc, ∃ p ∈ cyc, p.id ∈ c.prerequisites := by
  obtain ⟨hne, hsub, hchain, hwrap⟩ := hcyc
  intro c hc
  obtain ⟨⟨k, hk⟩, hget⟩ := List.mem_iff_get.mp hc
  cases k with
  | zero =>
    refine ⟨cyc.getLast hne, List.getLast_mem hne, ?_⟩
    have hhead : cyc.head hne = c := by
      rw [← hget, List.get_mk_zero]
    rw [← hhead]
    exact hwrap hne
  | succ k =>
    have hk2 : k < cyc.length - 1 := by omega
    have hchain2 := List.chain'_iff_get.mp hchain k hk2
    refine ⟨cyc.get ⟨k, by omega⟩, List.get_mem cyc k (by omega), ?_⟩
    have hget2 : cyc.get ⟨k + 1, by omega⟩ = c := hget
    rw [← hget2]
    exact hchain2

/-- Members of a prerequisite cycle are never emitted. -/
lemma topological_sort_no_cycle (concepts : List Concept)
    (hN : (concepts.map Concept.id).Nodup) (cyc : List Concept)
    (hcyc : IsCycleIn concepts cyc) :
    ∀ c ∈ cyc, c ∉ topological_sort concepts := by
  obtain ⟨d2, inv⟩ := topological_sort_final concepts hN
  have hpos : ∀ (j : ℕ) (hj : j < (topological_sort concepts).length),
      (topological_sort concepts).get ⟨j, hj⟩ ∉ cyc := by
    intro j
    induction j using Nat.strong_induction_on with
    | _ j ihj =>
      intro hj hmem
      obtain ⟨p, hpcyc, hpid⟩ := cycle_pred concepts cyc hcyc _ hmem
      have hord := inv.ordered j hj p.id hpid
      obtain ⟨y, hy, hyid⟩ := List.mem_map.mp hord
      obtain ⟨⟨i, hi⟩, hgy⟩ := List.mem_iff_get.mp hy
      have hij : i < j := by
        have := hi
        rw [List.length_take] at this
        omega
      have hi2 : i < (topological_sort concepts).length := by
        have := hi
        rw [List.length_take] at this
        omega
      have hgety : (topological_sort concepts).get ⟨i, hi2⟩ = y := by
        rw [← hgy, List.get_eq_getElem, List.get_eq_getElem]
        exact (List.getElem_take _).symm
      have hyout : y ∈ topological_sort concepts := List.mem_of_mem_take hy
      have hyc2 : y ∈ concepts := inv.sub_emitted y hyout
      have hpc2 : p ∈ concepts := hcyc.2.1 p hpcyc
      have hyp : y = p := concept_id_inj concepts hN hyc2 hpc2 hyid
      refine ihj i hij hi2 ?_
      rw [hgety, hyp]
      exact hpcyc
  intro c hc hcmem
  obtain ⟨⟨j, hj⟩, hgc⟩ := List.mem_iff_get.mp hcmem
  exact hpos j hj (hgc ▸ hc)

/-!
## Claims C5, C6, C10 (dependency graph builder / topological sort)
-/

/-- **C5.** For every acyclic set of concepts (duplicate-free ids, every listed
prerequisite id resolving inside the set), `topological_sort` outputs a
permutation of the input (every concept exactly once) in which each concept
appears after all of its prerequisites; at every iteration the emitted concept
has minimal `difficulty_level` among the currently-ready queue; and on
`{X(no prereq, difficulty 3), Y(no prereq, difficulty 1), Z(prereq [X,Y],
difficulty 1)}` the output is `[Y, X, Z]`. -/
theorem C5_topological_order (concepts : List Concept)
    (hN : (concepts.map Concept.id).Nodup)
    (hclosed : ∀ c ∈ concepts, ∀ p ∈ c.prerequisites, p ∈ concepts.map Concept.id)
    (hacyclic : Acyclic concepts) :
    (topological_sort concepts).Perm concepts ∧
    (∀ (j : ℕ) (hj : j < (topological_sort concepts).length),
      ∀ p ∈ ((topological_sort concepts).get ⟨j, hj⟩).prerequisites,
        p ∈ ((topological_sort concepts).take j).map Concept.id) ∧
    (∀ (fuel : ℕ) (queue : List Concept) (indeg : ℕ → ℤ) (e : Concept)
        (rest : List Concept),
      kahn_loop (build_dependency_graph concepts) (concept_map concepts)
        (fuel + 1) queue indeg = e :: rest →
      e ∈ queue ∧ ∀ x ∈ queue, e.difficulty_level ≤ x.difficulty_level) ∧
    (topological_sort [⟨1, [], 3⟩, ⟨2, [], 1⟩, ⟨3, [1, 2], 1⟩]).map Concept.id =
      [2, 1, 3] := by
  obtain ⟨d2, inv⟩ := topological_sort_final concepts hN
  refine ⟨?_, ?_, ?_, by decide⟩
  · have hnodup_out : (topological_sort concepts).Nodup := by
      have hids : ((topological_sort concepts).map Concept.id).Nodup := by
        have := inv.nodup_ids
        simpa using this
      exact List.Nodup.of_map Concept.id hids
    have hnodup_c : concepts.Nodup := List.Nodup.of_map Concept.id hN
    rw [List.perm_ext_iff_of_nodup hnodup_out hnodup_c]
    intro a
    exact ⟨fun h => inv.sub_emitted a h,
      fun h => topological_sort_coverage concepts hN hclosed hacyclic a h⟩
  · exact inv.ordered
  · intro fuel queue indeg e rest hloop
    cases hs : sort_by_difficulty queue with
    | nil =>
      exfalso
      simp only [kahn_loop] at hloop
      rw [hs] at hloop
      exact List.noConfusion hloop
    | cons e2 rest2 =>
      simp only [kahn_loop] at hloop
      rw [hs] at hloop
      simp only at hloop
      have he2 : e2 = e := by
        have := congrArg List.head? hloop
        simpa using this
      subst he2
      exact sort_by_difficulty_head_min queue e2 rest2 hs

/-- Witness for C5 at the `{X, Y, Z}` example (ids `1, 2, 3`), with ranking
`id` certifying acyclicity. -/
theorem C5_topological_order_witness :
    (([⟨1, [], 3⟩, ⟨2, [], 1⟩, ⟨3, [1, 2], 1⟩] :
        List Concept).map Concept.id).Nodup ∧
    (topological_sort [⟨1, [], 3⟩, ⟨2, [], 1⟩, ⟨3, [1, 2], 1⟩]).Perm
      [⟨1, [], 3⟩, ⟨2, [], 1⟩, ⟨3, [1, 2], 1⟩] ∧
    (topological_sort [⟨1, [], 3⟩, ⟨2, [], 1⟩, ⟨3, [1, 2], 1⟩]).map Concept.id =
      [2, 1, 3] := by
  have h := C5_topological_order [⟨1, [], 3⟩, ⟨2, [], 1⟩, ⟨3, [1, 2], 1⟩]
    (by decide) (by decide) ⟨fun i => i, by decide⟩
  exact ⟨by decide, h.1, h.2.2.2⟩

/-- **C6.** For every input concept set (ids duplicate-free), including ones
whose prerequisite graph contains a cycle, the while loop of
`topological_sort` terminates — the result is unchanged by any extra fuel
beyond the budget — its output contains each concept at most once and only
input concepts, and members of a prerequisite cycle (which never reach
in-degree 0) are silently omitted from the output rather than failing. -/
theorem C6_cycle_tolerant_termination (concepts : List Concept)
    (hN : (concepts.map Concept.id).Nodup) :
    (∀ fuel : ℕ, concepts.length + concepts.length ≤ fuel →
      kahn_loop (build_dependency_graph concepts) (concept_map concepts) fuel
        (concepts.filter (fun c => decide (in_degree0 concepts c.id = 0)))
        (in_degree0 concepts) = topological_sort concepts) ∧
    ((topological_sort concepts).map Concept.id).Nodup ∧
    (∀ x ∈ topological_sort concepts, x ∈ concepts) ∧
    (∀ cyc : List Concept, IsCycleIn concepts cyc →
      ∀ c ∈ cyc, c ∉ topological_sort concepts) := by
  obtain ⟨d2, inv⟩ := topological_sort_final concepts hN
  refine ⟨?_, ?_, inv.sub_emitted, topological_sort_no_cycle concepts hN⟩
  · intro fuel hfuel
    have hdom : ∀ i x, concept_map concepts i = some x →
        i ∈ (concepts.map Concept.id).dedup := by
      intro i x h
      obtain ⟨hm, hid⟩ := concept_map_sound concepts i x h
      rw [List.mem_dedup, ← hid]
      exact List.mem_map_of_mem Concept.id hm
    have hkey : ∀ i x, concept_map concepts i = some x → x.id = i :=
      fun i x h => (concept_map_sound concepts i x h).2
    have hphi := phi_init_le concepts
    have heq := kahn_loop_fuel_independent (build_dependency_graph concepts)
      (concept_map concepts) ((concepts.map Concept.id).dedup)
      (List.nodup_dedup _) hdom hkey fuel (concepts.length + concepts.length)
      (concepts.filter (fun c => decide (in_degree0 concepts c.id = 0)))
      (in_degree0 concepts) (by omega) hphi
    rw [heq]
    rfl
  · have := inv.nodup_ids
    simpa using this

/-- Witness for C6 on the two-concept cycle `1 ⇄ 2`: the loop result is stable
under extra fuel and both cycle members are dropped from the output. -/
theorem C6_cycle_tolerant_termination_witness :
    (([⟨1, [2], 1⟩, ⟨2, [1], 1⟩] : List Concept).map Concept.id).Nodup ∧
    (Concept.mk 1 [2] 1) ∉ topological_sort [⟨1, [2], 1⟩, ⟨2, [1], 1⟩] ∧
    kahn_loop (build_dependency_graph [⟨1, [2], 1⟩, ⟨2, [1], 1⟩])
      (concept_map [⟨1, [2], 1⟩, ⟨2, [1], 1⟩]) 9
      ([⟨1, [2], 1⟩, ⟨2, [1], 1⟩].filter
        (fun c => decide (in_degree0 [⟨1, [2], 1⟩, ⟨2, [1], 1⟩] c.id = 0)))
      (in_degree0 [⟨1, [2], 1⟩, ⟨2, [1], 1⟩]) =
      topological_sort [⟨1, [2], 1⟩, ⟨2, [1], 1⟩] := by
  have h := C6_cycle_tolerant_termination [⟨1, [2], 1⟩, ⟨2, [1], 1⟩] (by decide)
  refine ⟨by decide, ?_, h.1 9 (by decide)⟩
  refine h.2.2.2 [⟨1, [2], 1⟩, ⟨2, [1], 1⟩] ?_ _ (by decide)
  refine ⟨by decide, by decide, ?_, fun hne => List.mem_cons_self _ _⟩
  rw [List.chain'_cons]
  exact ⟨by decide, List.chain'_singleton _⟩

/-- **C10.** A concept listing a prerequisite id not present in the input set
never reaches in-degree 0 and is omitted from `topological_sort`'s output,
even when the prerequisite graph over the supplied concepts is acyclic —
dangling references are dropped exactly like cycle members.  The concrete
conjunct shows the one-concept acyclic instance `{id 1, prereq [99]}`
producing the empty output. -/
theorem C10_dangling_prerequisite (concepts : List Concept)
    (hN : (concepts.map Concept.id).Nodup) :
    (∀ c ∈ concepts, ∀ p ∈ c.prerequisites, p ∉ concepts.map Concept.id →
      c ∉ topological_sort concepts) ∧
    (topological_sort [⟨1, [99], 1⟩] = [] ∧ Acyclic [⟨1, [99], 1⟩]) := by
  obtain ⟨d2, inv⟩ := topological_sort_final concepts hN
  refine ⟨?_, by decide, ⟨fun i => if i = 99 then 0 else 1, by decide⟩⟩
  intro c hc p hp hpn hcout
  have hcomp := inv.complete c hc
  simp only [List.not_mem_nil, or_false] at hcomp
  have hall := hcomp.mpr hcout
  have hpids := hall p hp
  obtain ⟨y, hy, hyid⟩ := List.mem_map.mp hpids
  exact hpn (hyid ▸ List.mem_map_of_mem Concept.id (inv.sub_emitted y hy))

/-- Witness for C10 at the dangling-reference instance `{id 1, prereq [99]}`. -/
theorem C10_dangling_prerequisite_witness :
    (([⟨1, [99], 1⟩] : List Concept).map Concept.id).Nodup ∧
    (Concept.mk 1 [99] 1) ∉ topological_sort [⟨1, [99], 1⟩] :=
  ⟨by decide,
    (C10_dangling_prerequisite [⟨1, [99], 1⟩] (by decide)).1
      ⟨1, [99], 1⟩ (by decide) 99 (by decide) (by decide)⟩

end Bdkinas
